import Mathlib

/-!
Verification of the tree-navigation repository (tree.H, treeFunctors.H,
treeCommands.H, treeNav.C).

The C++ sources are shallowly embedded:

* `TreeNode<TreeInfo>` becomes the inductive `Node`: the node payload
  (`TreeInfo`: name, level, idx) plus a key-sorted association list for the
  `std::map<string, TreeNode*>` of children.  The non-owning parent pointer of
  `TreeInfo` is represented by the ancestor stack of a `Pos` (the repository
  establishes parent/child-map consistency at insertion time, spec section 3,
  so "follow the parent pointer" and "pop the ancestor stack" agree).
* C strings walked by pointer become `List Char`; `std::string` values stored
  in nodes stay `String`.
* `size_t` counters become `Nat`; where the source can wrap (the `level_`
  counter of `NodeFunction`) the embedding computes modulo `2 ^ 64`.
* functions that report failure through a return code or a null pointer
  return `Bool` / `Option`; functions that `throw` return `Except String`.
* `std::regex` full matching (`regex_match`) is external library code, not
  part of this repository; `rmatch` models the ECMAScript fragment that
  `adjustPattern` tokens use (literal characters, `.`, postfix `*` and `?`).

Definitions come first, in source order; all lemmas and the claim theorems
follow.
-/

set_option maxHeartbeats 1000000
set_option linter.unusedVariables false

/-!  ## List preliminaries (used by the termination arguments below) -/

/-- `(l.dropWhile p).length ≤ l.length`. -/
theorem lenDropWhileLe {α} (p : α → Bool) : ∀ l : List α, (l.dropWhile p).length ≤ l.length := by
  intro l
  induction l with
  | nil => simp
  | cons a l ih =>
    simp only [List.dropWhile]
    cases p a
    · simp
    · simp
      omega

/-- The head of `l.dropWhile p` does not satisfy `p`. -/
theorem dropWhileHeadNot {α} (p : α → Bool) :
    ∀ (l : List α) (c : α) (r : List α), l.dropWhile p = c :: r → p c = false := by
  intro l
  induction l with
  | nil => intro c r h; simp at h
  | cons a l ih =>
    intro c r h
    simp only [List.dropWhile] at h
    cases hpa : p a
    · rw [hpa] at h
      simp at h
      rw [← h.1]
      exact hpa
    · rw [hpa] at h
      exact ih c r h

/-- The path-component delimiter `TreeInfo::delim` (treeFunctors.H). -/
def treeDelim : Char := '/'

/-- `isspace` of the C locale, as used by `makeArgs` and `follow`. -/
def isSpaceC (c : Char) : Bool :=
  c = ' ' || c = '\t' || c = '\n' || c = '\x0b' || c = '\x0c' || c = '\r'

/-- Node payload: `TreeInfo` from treeFunctors.H (name, level, idx).  The
parent back-pointer is modelled positionally, see `Pos`. -/
structure NData where
  name : String
  level : Nat
  idx : Nat
deriving DecidableEq, Repr

/-- `TreeNode<TreeInfo>` from tree.H: payload plus the ordered child map,
modelled as a key-sorted association list (`std::map` iterates in ascending
key order). -/
inductive Node where
  | mk : NData → List (String × Node) → Node

/-- The `data` member of a `TreeNode`. -/
def Node.data : Node → NData
  | .mk d _ => d

/-- The `children` member of a `TreeNode`. -/
def Node.children : Node → List (String × Node)
  | .mk _ cs => cs

/-- A node together with its chain of ancestors (nearest first).  This stands
for a `TreeNode*` whose `data.parent` chain is intact: `data.parent` is
null exactly when `anc` is empty, otherwise it is `anc.head`. -/
structure Pos where
  anc : List Node
  cur : Node

/-- `children.find(key)` on the ordered map, as a linear scan of the
association list (equivalent on the sorted, duplicate-free lists the
repository builds). -/
def childFind : List (String × Node) → String → Option Node
  | [], _ => none
  | (k, v) :: rest, key => if key = k then some v else childFind rest key

/-- `children[key] = v` on the ordered map: insert or overwrite, keeping the
list sorted by key. -/
def childInsert : List (String × Node) → String → Node → List (String × Node)
  | [], key, v => [(key, v)]
  | (k, w) :: rest, key, v =>
    if key < k then (key, v) :: (k, w) :: rest
    else if key = k then (key, v) :: rest
    else (k, w) :: childInsert rest key v

/-!  ## Tokenization used by `insert` (treeNav.C)

`insert` parses the path with `getline(InStr, tok, pdelim)`.  `gtok` lists the
tokens `getline` yields: components split at the delimiter, where a trailing
delimiter does not produce a final empty token (`getline` fails at end of
stream having extracted nothing), while a repeated delimiter does produce an
empty token.  The empty string yields no token at all. -/
def gtok : List Char → Char → List (List Char)
  | [], _ => []
  | c :: cs, d =>
    if c = d then [] :: gtok cs d
    else
      match gtok cs d with
      | [] => [[c]]
      | t :: ts => (c :: t) :: ts

/-- `insert`'s per-component loop (treeNav.C lines 82-93):
`while (getline(InStr, tok, pdelim) && !tok.empty())` — stop at the first
empty token, otherwise fetch-or-create the child (recording name and
level = parent level + 1 at creation) and descend. -/
def insertLoop : Node → List (List Char) → Node
  | n, [] => n
  | n, t :: ts =>
    if t = [] then n
    else
      let key := String.mk t
      let c :=
        match childFind n.children key with
        | some c => c
        | none => Node.mk ⟨key, n.data.level + 1, 0⟩ []
      Node.mk n.data (childInsert n.children key (insertLoop c ts))

/-- `insert(root, path, pdelim)` from treeNav.C (named `insertPath` here
because `insert` collides with `Insert.insert`): reject the empty path; use
the first token to set or check the root name; then create missing nodes
along the remaining tokens.  Returns the updated tree and the `bool` result. -/
def insertPath (root : Node) (path : List Char) (pdelim : Char) : Node × Bool :=
  if path = [] then (root, false)
  else
    match gtok path pdelim with
    | [] => (root, false)
    | t :: rest =>
      if root.data.name = "" then
        let nm := if t = [] then String.singleton treeDelim else String.mk t
        (insertLoop (Node.mk ⟨nm, root.data.level, root.data.idx⟩ root.children) rest, true)
      else if t ≠ [] ∧ root.data.name ≠ String.mk t then (root, false)
      else (insertLoop root rest, true)

/-!  ## Literal path resolution: `follow` (treeFunctors.H lines 403-452) -/

/-- Pop to the parent if there is one (`if (cwd->data.parent) cwd = parent`),
otherwise stay. -/
def posUp (p : Pos) : Pos :=
  match p.anc with
  | [] => p
  | a :: rest => ⟨rest, a⟩

/-- The body of `follow`'s `while` loop: skip delimiters, extract the token up
to the next delimiter, then handle `.` / `..` / exact child lookup.  A failed
child lookup returns null immediately. -/
def followLoop (cwd : Pos) : List Char → Option Pos
  | [] => some cwd
  | c :: p =>
    if c = treeDelim then followLoop cwd p
    else
      if (c :: p).takeWhile (fun x => x != treeDelim) = ['.'] then
        followLoop cwd ((c :: p).dropWhile (fun x => x != treeDelim))
      else if (c :: p).takeWhile (fun x => x != treeDelim) = ['.', '.'] then
        followLoop (posUp cwd) ((c :: p).dropWhile (fun x => x != treeDelim))
      else
        match childFind cwd.cur.children
            (String.mk ((c :: p).takeWhile (fun x => x != treeDelim))) with
        | none => none
        | some child =>
          followLoop ⟨cwd.cur :: cwd.anc, child⟩
            ((c :: p).dropWhile (fun x => x != treeDelim))
termination_by l => l.length
decreasing_by
  · simp
  all_goals
  · have hc : (c != treeDelim) = true := by simp_all
    simp only [List.dropWhile, hc]
    have hle := lenDropWhileLe (fun x => x != treeDelim) p
    simp only [List.length_cons]
    omega

/-- `follow(root, arg, node)` from treeFunctors.H: skip leading whitespace,
start at the root when the path is absolute (or when no current node is
given), then run the loop. -/
def follow (root : Node) (arg : List Char) (node : Option Pos) : Option Pos :=
  let p := arg.dropWhile isSpaceC
  let start :=
    match node with
    | some n => n
    | none => ⟨[], root⟩
  followLoop (if p.head? = some treeDelim then ⟨[], root⟩ else start) p

/-!  ## Word classification and pattern translation (treeCommands.H) -/

/-- `Command::WordType` (treeCommands.H line 94). -/
inductive WordType where
  | invalid_ | plain_ | pattern_ | quoted_
deriving DecidableEq, Repr

/-- The quote-checking loop of `wordType` for a word starting with `"`:
walk the remaining characters, reject any quote that is followed by another
character; at the end the word is quoted iff its last character is a quote
(for the one-character word `"` the opening quote itself is that last
character).  `prev` carries the previously seen character (`*(w-1)`). -/
def quoteScan : Char → List Char → WordType
  | prev, [] => if prev = '"' then .quoted_ else .invalid_
  | _, '"' :: _ :: _ => .invalid_
  | _, c :: rest => quoteScan c rest

/-- The bracket/wildcard loop of `wordType`: a word is a pattern iff it
contains `*`, `?`, `[` or `]`; a `[` inside a range, or a `]` outside one,
or an unclosed `[` is invalid. -/
def scanTok : List Char → Bool → Bool → WordType
  | [], isPat, hasRange =>
    if hasRange then .invalid_ else if isPat then .pattern_ else .plain_
  | c :: cs, isPat, hasRange =>
    let isPat2 := isPat || (c = '*' || c = '?' || c = '[' || c = ']')
    if c = '[' then
      if hasRange then .invalid_ else scanTok cs isPat2 true
    else if c = ']' then
      if hasRange = false then .invalid_ else scanTok cs isPat2 false
    else scanTok cs isPat2 hasRange

/-- `Command::wordType` (treeCommands.H lines 329-359). -/
def wordType (w : List Char) : WordType :=
  match w with
  | '"' :: rest => quoteScan '"' rest
  | _ => scanTok w false false

/-- `Command::adjustPattern` (treeCommands.H lines 362-378): extract the
token of `w` up to `delim` (or the end), inserting a `.` before every `*`;
report whether the token contains a wildcard character and whether it
contains `TreeInfo::delim`.  Returns (translated token, rest of the word
starting at the delimiter, isPattern, hasDelim). -/
def adjustPattern : List Char → Char → List Char × List Char × Bool × Bool
  | [], _ => ([], [], false, false)
  | c :: cs, d =>
    if c = d then ([], c :: cs, false, false)
    else
      let r := adjustPattern cs d
      ((if c = '*' then ['.', c] else [c]) ++ r.1,
       r.2.1,
       r.2.2.1 || (c = '*' || c = '?' || c = '[' || c = ']'),
       r.2.2.2 || c = treeDelim)

/-!  ## Model of `std::regex` full matching

`shellExpansion` hands the translated token to `std::regex` and tests each
child key with `regex_match` (the match must cover the whole key).
Modelled from the spec: ECMAScript matching for the fragment the translated
tokens use — literal characters, `.` (any character), and postfix `*` / `?`
(zero-or-more / zero-or-one of the preceding atom).  Character classes
(`[...]`) are not modelled; no verified claim depends on them. -/
def atomMatch (p c : Char) : Bool := p = '.' || p = c

mutual
/-- Does the pattern match the entire string (`regex_match` semantics)? -/
def rmatch : List Char → List Char → Bool
  | [], s => s.isEmpty
  | p :: ps, s =>
    match ps with
    | q :: ps2 =>
      if q = '*' then rstar p ps2 s
      else if q = '?' then
        rmatch ps2 s ||
          (match s with
           | [] => false
           | c :: s2 => atomMatch p c && rmatch ps2 s2)
      else
        match s with
        | [] => false
        | c :: s2 => atomMatch p c && rmatch (q :: ps2) s2
    | [] =>
      match s with
      | [] => false
      | c :: s2 => atomMatch p c && rmatch [] s2
termination_by pat s => (pat.length, s.length)

/-- Match `p*` followed by `ps` against the string (backtracking). -/
def rstar (p : Char) (ps : List Char) (s : List Char) : Bool :=
  rmatch ps s ||
    (match s with
     | [] => false
     | c :: s2 => atomMatch p c && rstar p ps s2)
termination_by (ps.length + 1, s.length)
end

/-!  ## Glob expansion (`Command::shellExpansion`, treeCommands.H) -/

/-- `Command::makePath` (treeCommands.H lines 306-316): render the
path-so-far stack (here: the stack of names pushed) into a single
delimiter-joined path; an empty stack yields nothing. -/
def mkPath (sofar : List String) : List String :=
  match sofar with
  | [] => []
  | n :: ns => [ns.foldl (fun acc nm => acc ++ String.singleton treeDelim ++ nm) n]

/-- `(*wi ? wi+1 : wi)`: step past the delimiter if the rest of the word is
non-empty, otherwise stay at the end. -/
def wstep : List Char → List Char
  | [] => []
  | _ :: r => r

theorem wstep_length_le (l : List Char) : (wstep l).length ≤ l.length := by
  cases l with
  | nil => simp [wstep]
  | cons c r => simp [wstep]

/-- `adjustPattern` leaves the rest of the word at the first delimiter. -/
theorem adjustPattern_rest (w : List Char) (d : Char) :
    (adjustPattern w d).2.1 = w.dropWhile (fun c => c != d) := by
  induction w with
  | nil => simp [adjustPattern]
  | cons c cs ih =>
    by_cases hc : c = d
    · simp [adjustPattern, hc, List.dropWhile]
    · have hcb : (c != d) = true := by simp [hc]
      simp [adjustPattern, hc, List.dropWhile, hcb, ih]

/-- The extracted token is empty exactly when the word is empty or starts
with the delimiter. -/
theorem adjustPattern_tok_nil (w : List Char) (d : Char) :
    (adjustPattern w d).1 = [] ↔ (w = [] ∨ w.head? = some d) := by
  cases w with
  | nil => simp [adjustPattern]
  | cons c cs =>
    by_cases hc : c = d
    · simp [adjustPattern, hc]
    · simp [adjustPattern, hc]
      by_cases hstar : c = '*'
      · simp [hstar]
      · simp [hstar]

/-- When a token was extracted, the rest of the word is strictly shorter. -/
theorem adjustPattern_rest_lt (w : List Char) (d : Char)
    (h : (adjustPattern w d).1 ≠ []) : (adjustPattern w d).2.1.length < w.length := by
  cases w with
  | nil => simp [adjustPattern] at h
  | cons c cs =>
    by_cases hc : c = d
    · exfalso
      apply h
      rw [adjustPattern_tok_nil]
      right
      simp [hc]
    · rw [adjustPattern_rest]
      have hcb : (c != d) = true := by simp [hc]
      simp only [List.dropWhile, hcb]
      have := lenDropWhileLe (fun x => x != d) cs
      simp only [List.length_cons]
      omega

/-- When no token was extracted from a non-empty word, the rest is the word
itself. -/
theorem adjustPattern_rest_self (w : List Char) (d : Char)
    (h : (adjustPattern w d).1 = []) : (adjustPattern w d).2.1 = w := by
  cases w with
  | nil => simp [adjustPattern]
  | cons c cs =>
    rw [adjustPattern_tok_nil] at h
    simp at h
    simp [adjustPattern, h]

mutual
/-- The recursive `Command::shellExpansion(node, w)` (treeCommands.H lines
220-303).  `sofar` is the stack of names pushed (`pathSoFar`); the collected
`paths` vector is the return value.  In the `.` branch the source always
advances `wi+1`; when the word ends at that `.` this reads past the
terminating NUL of the C string — undefined behaviour, modelled here as
producing no result (no verified claim exercises that input). -/
def expandAux (pos : Pos) (w : List Char) (sofar : List String) : List String :=
  if hw : w = [] then mkPath sofar
  else
    if ht : (adjustPattern w treeDelim).1 ≠ [] then
      if (adjustPattern w treeDelim).2.2.1 = false then
        if (adjustPattern w treeDelim).1 = ['.'] then
          if (adjustPattern w treeDelim).2.1 = [] then []
          else expandAux pos ((adjustPattern w treeDelim).2.1).tail sofar
        else if (adjustPattern w treeDelim).1 = ['.', '.'] then
          match pos.anc with
          | a :: rest => expandAux ⟨rest, a⟩ (wstep (adjustPattern w treeDelim).2.1) sofar
          | [] => []
        else
          match childFind pos.cur.children (String.mk (adjustPattern w treeDelim).1) with
          | some child =>
            expandAux ⟨pos.cur :: pos.anc, child⟩ (wstep (adjustPattern w treeDelim).2.1)
              (sofar ++ [child.data.name])
          | none => []
      else
        expandKids pos.anc pos.cur pos.cur.children (adjustPattern w treeDelim).1
          (wstep (adjustPattern w treeDelim).2.1) sofar
    else
      expandAux pos (wstep (adjustPattern w treeDelim).2.1) sofar
termination_by (w.length, 0)
decreasing_by
  · apply Prod.Lex.left
    have hlt := adjustPattern_rest_lt w treeDelim ht
    have hta := List.length_tail ((adjustPattern w treeDelim).2.1)
    omega
  · apply Prod.Lex.left
    have hlt := adjustPattern_rest_lt w treeDelim ht
    have hws := wstep_length_le ((adjustPattern w treeDelim).2.1)
    omega
  · apply Prod.Lex.left
    have hlt := adjustPattern_rest_lt w treeDelim ht
    have hws := wstep_length_le ((adjustPattern w treeDelim).2.1)
    omega
  · apply Prod.Lex.left
    have hlt := adjustPattern_rest_lt w treeDelim ht
    have hws := wstep_length_le ((adjustPattern w treeDelim).2.1)
    omega
  · apply Prod.Lex.left
    rw [adjustPattern_rest_self w treeDelim (not_not.mp ht)]
    cases hw2 : w with
    | nil => exact absurd hw2 hw
    | cons c cs => simp [wstep]

/-- The `for (const auto& [key, child] : node.children)` loop of the pattern
branch: children are tried in ascending key order; each full-key match is
pushed, expanded, and popped. -/
def expandKids (anc : List Node) (cur : Node) (cs : List (String × Node))
    (tok : List Char) (w : List Char) (sofar : List String) : List String :=
  match cs with
  | [] => []
  | (k, child) :: rest =>
    (if rmatch tok k.toList then
       expandAux ⟨cur :: anc, child⟩ w (sofar ++ [child.data.name])
     else []) ++ expandKids anc cur rest tok w sofar
termination_by (w.length, cs.length + 1)
decreasing_by
  · apply Prod.Lex.right
    omega
  · apply Prod.Lex.right
    simp
end

/-- Entry point for expanding one pattern word from a node
(`pathSoFar.clear(); paths.clear(); shellExpansion(node, word)`). -/
def expandWord (p : Pos) (w : List Char) : List String := expandAux p w []

/-- One step of the word-rewriting loop of `Command::shellExpansion(node)`
(treeCommands.H lines 171-218): strip the quotes of a quoted word, throw on
an invalid word, replace a pattern word by its expansions when there are
any, keep everything else.  (For the one-character word `"` the source
builds `string(word+1, word-0)` from a reversed iterator range — undefined
behaviour; modelled as the empty word.  `makeArgs` never produces that
word.) -/
def argExpand1 (p : Pos) (w : List Char) : Except String (List (List Char)) :=
  match wordType w with
  | .quoted_ => .ok [(w.drop 1).dropLast]
  | .invalid_ => .error "shellExpansion: invalid argument"
  | .pattern_ =>
    .ok (if expandWord p w = [] then [w] else (expandWord p w).map String.toList)
  | .plain_ => .ok [w]

/-- The word-rewriting loop of `Command::shellExpansion(node)` over the
argument list: each word is rewritten in place (expansions are spliced in at
the word's position and are not re-examined); the first invalid word
throws. -/
def shellExpansionArgs (p : Pos) : List (List Char) → Except String (List (List Char))
  | [] => .ok []
  | w :: rest =>
    match argExpand1 p w with
    | .error e => .error e
    | .ok a =>
      match shellExpansionArgs p rest with
      | .error e => .error e
      | .ok b => .ok (a ++ b)

/-- Instrumentation of the same loop: the words that are handed to the
recursive expander (i.e. classified `pattern_`) before the loop throws. -/
def expandedWords : List (List Char) → List (List Char)
  | [] => []
  | w :: rest =>
    match wordType w with
    | .invalid_ => []
    | .pattern_ => w :: expandedWords rest
    | _ => expandedWords rest

/-!  ## `makeArgs` (treeCommands.H lines 97-169) -/

/-- The tokenizer states of `makeArgs` (the source calls the first one
`none`; renamed here to avoid clashing with `Option.none`). -/
inductive MState where
  | start | token | quoted | endq
deriving DecidableEq

/-- The character loop of `makeArgs`, with the end-of-input handling
(`throw` on an unterminated quote, flush a pending token). -/
def makeArgsLoop : List Char → MState → List Char → List (List Char) →
    Except String (List (List Char))
  | [], st, word, words =>
    if st = .quoted then .error "makeArgs: unmatched quote"
    else if st = .token ∧ word ≠ [] then .ok (words ++ [word])
    else .ok words
  | c :: cs, st, word, words =>
    match st with
    | .start =>
      if isSpaceC c then makeArgsLoop cs .start word words
      else makeArgsLoop cs (if c = '"' then .quoted else .token) [c] words
    | .token =>
      if isSpaceC c then makeArgsLoop cs .start word (words ++ [word])
      else if c = '"' then .error "makeArgs: quote preceded by alpha character"
      else makeArgsLoop cs .token (word ++ [c]) words
    | .quoted =>
      if c = '"' then makeArgsLoop cs .endq [] (words ++ [word ++ [c]])
      else makeArgsLoop cs .quoted (word ++ [c]) words
    | .endq =>
      if isSpaceC c then makeArgsLoop cs .start word words
      else .error "makeArgs: non-space after closing quote"

/-- `Command::makeArgs`: split a command line into words, keeping the quotes
of quoted words (they are removed later by `shellExpansion`). -/
def makeArgs (cmdLine : List Char) : Except String (List (List Char)) :=
  makeArgsLoop cmdLine .start [] []

/-- A word is free of quote malformations: either it is a quoted word — an
opening quote, a non-empty remainder ending in the closing quote with no
quote in between — or it contains no quote at all (so no unmatched quote,
no quote in mid-token, nothing after a closing quote). -/
def quoteOK (w : List Char) : Prop :=
  match w with
  | '"' :: rest => rest ≠ [] ∧ rest.getLast? = some '"' ∧ '"' ∉ rest.dropLast
  | _ => '"' ∉ w

/-!  ## Depth-first traversal with visitors (tree.H lines 71-92,
treeFunctors.H `Level`) -/

/-- One traversal event, recorded by the instrumented driver: a `visit`
(functor call) or an `onExit` call, with the node name, the visitor's level
counter at the call, and the structural depth of the node relative to the
traversal root. -/
structure Ev where
  isVisit : Bool
  nm : String
  lvl : Nat
  sd : Nat
deriving DecidableEq, Repr

/-- A `NodeFunction`: `operator()` may rewrite the node's payload and its own
state and returns the descend flag; `onExit` likewise (its `bool` result is
ignored by `DFS`); `lvl` reads the `level_` counter. -/
structure Visitor (σ : Type) where
  visit : σ → Node → σ × NData × Bool
  onExit : σ → Node → σ × NData
  lvl : σ → Nat

mutual
/-- `DFS::operator()` (tree.H lines 79-91): while the visitor's level counter
is below `maxLevel`, visit the node, recurse into every child in key order
when the visitor said to descend, then call `onExit` unconditionally.
Returns the final visitor state, the rewritten node, and the event trace
(instrumentation; the C++ driver of course records no trace). -/
def dfs {σ} (v : Visitor σ) (maxL : Nat) (s : σ) (n : Node) (sd : Nat) :
    σ × Node × List Ev :=
  if v.lvl s < maxL then
    let r1 := v.visit s n
    let r2 := if r1.2.2 then dfsKids v maxL r1.1 n.children (sd + 1)
              else (r1.1, n.children, [])
    let r3 := v.onExit r2.1 (Node.mk r1.2.1 r2.2.1)
    (r3.1, Node.mk r3.2 r2.2.1,
      Ev.mk true n.data.name (v.lvl s) sd ::
        (r2.2.2 ++ [Ev.mk false n.data.name (v.lvl r2.1) sd]))
  else (s, n, [])
termination_by sizeOf n
decreasing_by
  · cases n with
    | mk d cs =>
      simp [Node.children]

/-- `for(auto& [key, child] : node.children) dfs(*child, func, maxLevel);` —
thread the visitor state through the children left to right. -/
def dfsKids {σ} (v : Visitor σ) (maxL : Nat) (s : σ) (cs : List (String × Node))
    (sd : Nat) : σ × List (String × Node) × List Ev :=
  match cs with
  | [] => (s, [], [])
  | (k, c) :: rest =>
    let r1 := dfs v maxL s c sd
    let r2 := dfsKids v maxL r1.1 rest sd
    (r2.1, (k, r1.2.1) :: r2.2.1, r1.2.2 ++ r2.2.2)
termination_by sizeOf cs
decreasing_by
  · simp
    omega
  · simp
end

/-- `size_t` wraps modulo `2 ^ 64`. -/
def sizeTMod : Nat := 2 ^ 64

/-- `-1ul`, the default `maxLevel` of `DFS::operator()`. -/
def maxLevelDefault : Nat := 2 ^ 64 - 1

/-- The `Level` functor (treeFunctors.H lines 135-149): on visit stamp the
node's level with the counter and increment; on exit decrement.  `size_t`
arithmetic wraps. -/
def LevelV : Visitor Nat :=
  ⟨fun s n => ((s + 1) % sizeTMod, ⟨n.data.name, s, n.data.idx⟩, true),
   fun s n => ((s + (sizeTMod - 1)) % sizeTMod, n.data),
   fun s => s⟩

/-- `setLevel` (treeFunctors.H lines 347-353): run `Level` over the tree by
depth-first traversal with the default depth bound. -/
def setLevel (root : Node) : Node := (dfs LevelV maxLevelDefault 0 root 0).2.1

/-- A minimal depth-tracking visitor (increments its counter on visit,
decrements on exit, touches nothing else); used to exercise the traversal
theorems on concrete trees. -/
def CountV : Visitor Nat :=
  ⟨fun s n => (s + 1, n.data, true), fun s n => (s - 1, n.data), fun s => s⟩

/-- A visitor maintains the level invariant if visiting increments its level
counter by one and exiting decrements it by one (as all the stock
level-keeping functors do within `size_t` range). -/
def LevelTracking {σ} (v : Visitor σ) : Prop :=
  (∀ s n, v.lvl (v.visit s n).1 = v.lvl s + 1) ∧
  (∀ s n, v.lvl (v.onExit s n).1 = v.lvl s - 1)

/-- A member of a child list is smaller than the node that carries the
list (termination helper). -/
theorem sizeOf_child_lt (n : Node) (e : String × Node) (he : e ∈ n.children) :
    sizeOf e.2 < sizeOf n := by
  have h1 : sizeOf e < sizeOf n.children := List.sizeOf_lt_of_mem he
  obtain ⟨k, nd⟩ := e
  cases n with
  | mk d cs =>
    simp [Node.children] at h1 ⊢
    omega

/-- Structural height: 0 for a leaf, one more than the maximal child height
otherwise. -/
def heightN (n : Node) : Nat :=
  n.children.attach.foldl (fun a c => max a (1 + heightN c.1.2)) 0
termination_by sizeOf n
decreasing_by
  · exact sizeOf_child_lt n c.1 c.2

/-- Every stored level field in the subtree equals the structural depth
(`k` for the root of the subtree, one more per generation). -/
def levelsOKB (n : Node) (k : Nat) : Bool :=
  (n.data.level == k) && n.children.attach.all (fun c => levelsOKB c.1.2 (k + 1))
termination_by sizeOf n
decreasing_by
  · exact sizeOf_child_lt n c.1 c.2

/-- Every child's stored name equals its key in the parent's child map
(established by `insert` and by `makeTree`; spec section 3). -/
def wfNamesB (n : Node) : Bool :=
  n.children.attach.all (fun c => (c.1.2.data.name == c.1.1) && wfNamesB c.1.2)
termination_by sizeOf n
decreasing_by
  · exact sizeOf_child_lt n c.1 c.2

/-- The non-empty delimiter-separated segments of a word, in order (the
sequence of tokens the `follow` loop and the glob expander actually act
on). -/
def segsOf : List Char → List (List Char)
  | [] => []
  | c :: p =>
    if c = treeDelim then segsOf p
    else
      (c :: p).takeWhile (fun x => x != treeDelim) ::
        segsOf ((c :: p).dropWhile (fun x => x != treeDelim))
termination_by l => l.length
decreasing_by
  · simp
  · have hc : (c != treeDelim) = true := by simp_all
    simp only [List.dropWhile, hc]
    have hle := lenDropWhileLe (fun x => x != treeDelim) p
    simp only [List.length_cons]
    omega

/-- Reference walk: descend from a position through a list of literal child
keys. -/
def segsFollow (p : Pos) : List (List Char) → Option Pos
  | [] => some p
  | t :: ts =>
    match childFind p.cur.children (String.mk t) with
    | none => none
    | some child => segsFollow ⟨p.cur :: p.anc, child⟩ ts

/-- Concatenate segments with the delimiter (the literal path the expander
renders via `makePath` when every pushed name equals its key). -/
def joinSegs : List (List Char) → List Char
  | [] => []
  | [t] => t
  | t :: ts => t ++ treeDelim :: joinSegs ts

/-!  ## Concrete trees used by witnesses and counterexamples -/

/-- Leaf node shorthand. -/
def leafN (nm : String) (lv : Nat) : Node := Node.mk ⟨nm, lv, 0⟩ []

/-- `a` with a single child `b`. -/
def sampleA : Node := Node.mk ⟨"a", 1, 0⟩ [("b", leafN "b" 2)]

/-- Root `/` with the single child `a` (which has child `b`). -/
def sampleT : Node := Node.mk ⟨"/", 0, 0⟩ [("a", sampleA)]

/-- The position of node `a` inside `sampleT`. -/
def samplePosA : Pos := ⟨[sampleT], sampleA⟩

/-- Root with one child `A1` (for the `?`-translation claim). -/
def sampleQ : Node := Node.mk ⟨"/", 0, 0⟩ [("A1", leafN "A1" 1)]

/-- Root with one child `b` (for the empty-expansion claim). -/
def sampleB : Node := Node.mk ⟨"/", 0, 0⟩ [("b", leafN "b" 1)]

/-!
# Lemmas and claim theorems
-/

@[simp] theorem Node.data_mk (d : NData) (cs : List (String × Node)) :
    (Node.mk d cs).data = d := rfl

@[simp] theorem Node.children_mk (d : NData) (cs : List (String × Node)) :
    (Node.mk d cs).children = cs := rfl

theorem Node.ext_data_children : ∀ n : Node, Node.mk n.data n.children = n
  | .mk _ _ => rfl

@[simp] theorem gtok_nil (d : Char) : gtok [] d = [] := rfl

theorem childFind_childInsert_self (l : List (String × Node)) (k : String) (v : Node) :
    childFind (childInsert l k v) k = some v := by
  induction l with
  | nil => simp [childInsert, childFind]
  | cons hd tl ih =>
    obtain ⟨k', v'⟩ := hd
    by_cases h1 : k < k'
    · simp [childInsert, childFind, h1]
    · by_cases h2 : k = k'
      · simp [childInsert, childFind, h1, h2]
      · simp [childInsert, childFind, h1, h2, ih]

theorem childInsert_childInsert_same (l : List (String × Node)) (k : String) (v : Node) :
    childInsert (childInsert l k v) k v = childInsert l k v := by
  induction l with
  | nil => simp [childInsert, lt_irrefl]
  | cons hd tl ih =>
    obtain ⟨k', v'⟩ := hd
    by_cases h1 : k < k'
    · simp [childInsert, h1, lt_irrefl]
    · by_cases h2 : k = k'
      · simp [childInsert, h1, h2, lt_irrefl]
      · simp [childInsert, h1, h2, ih]

theorem childFind_mem :
    ∀ (l : List (String × Node)) (k : String) (v : Node),
      childFind l k = some v → (k, v) ∈ l := by
  intro l
  induction l with
  | nil => intro k v h; simp [childFind] at h
  | cons hd tl ih =>
    intro k v h
    obtain ⟨k', v'⟩ := hd
    by_cases hk : k = k'
    · subst hk
      simp [childFind] at h
      subst h
      exact List.mem_cons_self _ _
    · simp [childFind, hk] at h
      exact List.mem_cons_of_mem _ (ih _ _ h)

theorem insertLoop_data : ∀ (n : Node) (ts : List (List Char)),
    (insertLoop n ts).data = n.data := by
  intro n ts
  cases ts with
  | nil => rfl
  | cons t ts =>
    by_cases h : t = []
    · simp [insertLoop, h]
    · simp [insertLoop, h]

theorem insertLoop_insertLoop : ∀ (ts : List (List Char)) (n : Node),
    insertLoop (insertLoop n ts) ts = insertLoop n ts := by
  intro ts
  induction ts with
  | nil => intro n; rfl
  | cons t ts ih =>
    intro n
    by_cases h : t = []
    · simp [insertLoop, h]
    · simp only [insertLoop, if_neg h, Node.children_mk, Node.data_mk,
        childFind_childInsert_self, ih, childInsert_childInsert_same]

theorem stringMk_eq_empty (t : List Char) : String.mk t = "" ↔ t = [] := by
  constructor
  · intro h
    have := congrArg String.data h
    simpa using this
  · intro h
    subst h
    rfl

/-- When the root name is set and the leading token is empty or agrees,
`insert` proceeds into the creation loop. -/
theorem insertPath_name_ok (T : Node) (p : List Char) (d : Char) (t : List Char)
    (rest : List (List Char)) (hp : p ≠ []) (hg : gtok p d = t :: rest)
    (hname : T.data.name ≠ "")
    (hmatch : t = [] ∨ T.data.name = String.mk t) :
    insertPath T p d = (insertLoop T rest, true) := by
  have hcond : ¬(t ≠ [] ∧ T.data.name ≠ String.mk t) := by
    rcases hmatch with h | h
    · intro hc
      exact hc.1 h
    · intro hc
      exact hc.2 h
  simp only [insertPath, if_neg hp, hg, if_neg hname, if_neg hcond]

/-- C7 (claim): inserting the same path twice is a no-op after the first
call: the whole `insert` result (tree and return flag) of the second call
equals that of the first. -/
theorem c7_insert_idempotent (T : Node) (p : List Char) (d : Char) :
    insertPath (insertPath T p d).1 p d = insertPath T p d := by
  by_cases hp : p = []
  · subst hp
    simp [insertPath]
  · cases hg : gtok p d with
    | nil => simp [insertPath, hp, hg]
    | cons t rest =>
      by_cases hname : T.data.name = ""
      · -- first call sets the root name and runs the loop
        have h1 : insertPath T p d =
            (insertLoop (Node.mk ⟨if t = [] then String.singleton treeDelim else String.mk t,
              T.data.level, T.data.idx⟩ T.children) rest, true) := by
          simp only [insertPath, if_neg hp, hg, if_pos hname]
        set nm := if t = [] then String.singleton treeDelim else String.mk t with hnm
        have hnmne : nm ≠ "" := by
          rw [hnm]
          by_cases ht : t = []
          · simp [ht, treeDelim]
            decide
          · simp [ht]
            rw [stringMk_eq_empty]
            exact ht
        have hdata : (insertPath T p d).1.data.name = nm := by
          rw [h1]
          rw [insertLoop_data]
          rfl
        have hmatch : t = [] ∨ (insertPath T p d).1.data.name = String.mk t := by
          by_cases ht : t = []
          · exact Or.inl ht
          · right
            rw [hdata, hnm]
            simp [ht]
        have h2 := insertPath_name_ok (insertPath T p d).1 p d t rest hp hg
          (by rw [hdata]; exact hnmne) hmatch
        rw [h2, h1]
        simp only [insertLoop_insertLoop]
      · -- root name already set
        by_cases hcond : t ≠ [] ∧ T.data.name ≠ String.mk t
        · have h1 : insertPath T p d = (T, false) := by
            simp only [insertPath, if_neg hp, hg, if_neg hname, if_pos hcond]
          rw [h1]
          simp only [insertPath, if_neg hp, hg, if_neg hname, if_pos hcond]
        · have hmatch : t = [] ∨ T.data.name = String.mk t := by
            by_cases ht : t = []
            · exact Or.inl ht
            · right
              by_contra hne
              exact hcond ⟨ht, hne⟩
          have h1 := insertPath_name_ok T p d t rest hp hg hname hmatch
          have hdata : (insertPath T p d).1.data.name = T.data.name := by
            rw [h1]
            simp [insertLoop_data]
          have h2 := insertPath_name_ok (insertPath T p d).1 p d t rest hp hg
            (by rw [hdata]; exact hname) (by rw [hdata]; exact hmatch)
          rw [h2, h1]
          simp only [insertLoop_insertLoop]

/-- C8 (claim): if the root already has a name and the insertion's leading
token is non-empty and different, the insertion returns failure and the
whole tree — root name included — is unchanged. -/
theorem c8_root_name_conflict (T : Node) (p : List Char) (d : Char) (t : List Char)
    (rest : List (List Char)) (hg : gtok p d = t :: rest)
    (hname : T.data.name ≠ "") (ht : t ≠ []) (hdiff : T.data.name ≠ String.mk t) :
    insertPath T p d = (T, false) := by
  have hp : p ≠ [] := by
    intro h
    subst h
    simp at hg
  simp only [insertPath, if_neg hp, hg, if_neg hname, if_pos (And.intro ht hdiff)]

/-- C8 witness: a root named `A` rejects the path `B` unchanged. -/
theorem c8_root_name_conflict_witness :
    insertPath (Node.mk ⟨"A", 0, 0⟩ []) ['B'] '/' = (Node.mk ⟨"A", 0, 0⟩ [], false) :=
  c8_root_name_conflict (Node.mk ⟨"A", 0, 0⟩ []) ['B'] '/' ['B'] []
    rfl (by decide) (by decide) (by decide)

/-- C4 counterexample: `follow` on the empty path does not report
"not found" — it returns the node it started from. -/
theorem c4_counterexample : follow sampleT [] none = some ⟨[], sampleT⟩ := by
  simp [follow, followLoop]

/-- C4 (amended): `insert` rejects the empty path without touching the tree;
`follow` on the empty path trivially succeeds, returning the starting
position (the given current node, or the root when none is given). -/
theorem c4_empty_path (T : Node) (d : Char) (node : Option Pos) :
    insertPath T [] d = (T, false) ∧
      follow T [] node = some (node.getD ⟨[], T⟩) := by
  constructor
  · simp [insertPath]
  · cases node with
    | none => simp [follow, followLoop]
    | some q => simp [follow, followLoop]

/-- C1: evaluation of the code at the failing input.  `adjustPattern` leaves
`?` untranslated (`A?` stays `A?`, while the spec's translation would yield
`A.`); compiled as a regex, `A?` means an optional `A`, so the child `A1` is
not matched and the expansion of `A?` is empty rather than `[A1]`. -/
theorem c1_question_mark_not_translated :
    (adjustPattern ['A', '?'] '/').1 = ['A', '?'] ∧
    (adjustPattern ['A', '?'] '/').2.2.1 = true ∧
    rmatch ['A', '?'] ['A', '1'] = false ∧
    rmatch ['A', '.'] ['A', '1'] = true ∧
    expandWord ⟨[], sampleQ⟩ ['A', '?'] = [] := by
  refine ⟨by simp [adjustPattern, treeDelim], by simp [adjustPattern], ?_, ?_, ?_⟩
  · simp [rmatch, atomMatch]
  · simp [rmatch, atomMatch]
  · have hA1 : ("A1" : String).toList = ['A', '1'] := by decide
    simp [expandWord, expandAux, expandKids, adjustPattern, sampleQ, treeDelim,
      wstep, hA1, rmatch, atomMatch]

/-- C3 counterexample: at the root, a `..` segment kills the branch instead
of being retried from the same node: expanding `../b` from the root of a
tree whose root has the child `b` yields nothing, while the claimed
behaviour (continue from the root as if the `..` were a no-op) would yield
the expansion of `b`, namely `[b]`. -/
theorem c3_counterexample :
    expandWord ⟨[], sampleB⟩ ['.', '.', '/', 'b'] = [] ∧
    expandWord ⟨[], sampleB⟩ ['b'] = ["b"] := by
  constructor
  · simp [expandWord, expandAux, adjustPattern, treeDelim, wstep]
  · simp [expandWord, expandAux, adjustPattern, treeDelim, wstep, sampleB,
      childFind, leafN, mkPath]

/-- C3 (amended): during glob expansion a `..` segment at a node with no
parent terminates that branch with no results (`return; // FAIL`) — for any
remaining pattern and any path-so-far stack. -/
theorem c3_dotdot_at_root_fails (cur : Node) (rest : List Char) (sofar : List String)
    (hrest : rest = [] ∨ rest.head? = some treeDelim) :
    expandAux ⟨[], cur⟩ ('.' :: '.' :: rest) sofar = [] := by
  have hrtok : (adjustPattern rest treeDelim).1 = [] := by
    rw [adjustPattern_tok_nil]
    rcases hrest with h | h
    · exact Or.inl h
    · exact Or.inr h
  have hrrest : (adjustPattern rest treeDelim).2.1 = rest :=
    adjustPattern_rest_self rest treeDelim hrtok
  have hrpat : (adjustPattern rest treeDelim).2.2.1 = false := by
    rcases hrest with h | h
    · subst h
      simp [adjustPattern]
    · cases rest with
      | nil => simp at h
      | cons c r =>
        simp at h
        simp [adjustPattern, h, treeDelim]
  have hrtok2 : (adjustPattern rest '/').1 = [] := hrtok
  have hrpat2 : (adjustPattern rest '/').2.2.1 = false := hrpat
  have htok : (adjustPattern ('.' :: '.' :: rest) treeDelim).1 = ['.', '.'] := by
    simp [adjustPattern, treeDelim, hrtok2]
  have hpat : (adjustPattern ('.' :: '.' :: rest) treeDelim).2.2.1 = false := by
    simp [adjustPattern, treeDelim, hrpat2]
  rw [expandAux]
  simp [htok, hpat]

/-- C3 amended-claim witness at a concrete input: `../b` from the root of
`sampleB` expands to nothing. -/
theorem c3_dotdot_at_root_fails_witness :
    expandAux ⟨[], sampleB⟩ ('.' :: '.' :: ['/', 'b']) [] = [] :=
  c3_dotdot_at_root_fails sampleB ['/', 'b'] [] (Or.inr rfl)

/-- C2 counterexample: for the wildcard-free path `/b`, resolved from node
`a` of `sampleT` (root `/` with child `a`, `a` with child `b`): `follow`
restarts at the root (absolute path) and fails — the root has no child `b` —
while glob expansion treats the leading delimiter as an empty segment and
continues from `a`, returning one result.  So expansion is not empty
whenever follow fails. -/
theorem c2_counterexample :
    follow sampleT ['/', 'b'] (some samplePosA) = none ∧
    expandWord samplePosA ['/', 'b'] = ["b"] := by
  constructor
  · simp [follow, followLoop, isSpaceC, treeDelim, sampleT, sampleA, childFind, leafN]
  · simp [expandWord, expandAux, adjustPattern, treeDelim, wstep, samplePosA,
      sampleA, childFind, leafN, mkPath]

/-- C10 (claim): a word classified as a pattern whose expansion finds no
path is left in the argument list unchanged, in its position; hence an
argument vector of plain words and non-matching pattern words is returned
by the expansion loop exactly as it came in. -/
theorem c10_nonmatching_pattern_kept (p : Pos) (ws : List (List Char))
    (h : ∀ w ∈ ws, wordType w = .plain_ ∨
        (wordType w = .pattern_ ∧ expandWord p w = [])) :
    shellExpansionArgs p ws = .ok ws := by
  induction ws with
  | nil => rfl
  | cons w rest ih =>
    have hw := h w (List.mem_cons_self _ _)
    have hrest := ih (fun x hx => h x (List.mem_cons_of_mem _ hx))
    rcases hw with hp | ⟨hpat, hemp⟩
    · simp [shellExpansionArgs, argExpand1, hp, hrest]
    · simp [shellExpansionArgs, argExpand1, hpat, hemp, hrest]

/-- C10 witness: with a tree whose only child is `b`, the pattern word `z*`
matches nothing and the one-word argument vector survives unchanged. -/
theorem c10_nonmatching_pattern_kept_witness :
    shellExpansionArgs ⟨[], sampleB⟩ [['z', '*']] = .ok [['z', '*']] := by
  apply c10_nonmatching_pattern_kept
  intro w hw
  simp at hw
  subst hw
  right
  constructor
  · rfl
  · have hb : ("b" : String).toList = ['b'] := by decide
    simp [expandWord, expandAux, expandKids, adjustPattern, treeDelim, wstep,
      sampleB, leafN, hb, rmatch, rstar, atomMatch]

theorem quoteOK_of_no_quote (w : List Char) (h : '"' ∉ w) : quoteOK w := by
  unfold quoteOK
  split
  · exact absurd (List.mem_cons_self _ _) h
  · exact h

theorem quoteOK_quoted (mid : List Char) (h : '"' ∉ mid) :
    quoteOK ('"' :: (mid ++ ['"'])) := by
  simp only [quoteOK]
  refine ⟨by simp, ?_, ?_⟩
  · rw [List.getLast?_concat]
  · rw [List.dropLast_concat]
    exact h

/-- Invariant of the `makeArgs` state machine: starting from a state whose
accumulators are quote-well-formed, every word of a successful result is
quote-well-formed. -/
theorem makeArgsLoop_quoteOK :
    ∀ (input : List Char) (st : MState) (word : List Char) (words : List (List Char))
      (ws : List (List Char)),
      (∀ w ∈ words, quoteOK w) →
      (st = .token → '"' ∉ word ∧ word ≠ []) →
      (st = .quoted → ∃ mid, word = '"' :: mid ∧ '"' ∉ mid) →
      makeArgsLoop input st word words = .ok ws →
      ∀ w ∈ ws, quoteOK w := by
  intro input
  induction input with
  | nil =>
    intro st word words ws hwords htok hq hrun w hw
    cases st with
    | start =>
      simp [makeArgsLoop] at hrun
      subst hrun
      exact hwords w hw
    | token =>
      obtain ⟨hnq, hne⟩ := htok rfl
      simp [makeArgsLoop, hne] at hrun
      subst hrun
      rcases List.mem_append.mp hw with h | h
      · exact hwords w h
      · simp at h
        subst h
        exact quoteOK_of_no_quote w hnq
    | quoted => simp [makeArgsLoop] at hrun
    | endq =>
      simp [makeArgsLoop] at hrun
      subst hrun
      exact hwords w hw
  | cons c cs ih =>
    intro st word words ws hwords htok hq hrun w hw
    cases st with
    | start =>
      simp only [makeArgsLoop] at hrun
      by_cases hsp : isSpaceC c = true
      · rw [if_pos hsp] at hrun
        exact ih .start word words ws hwords (by intro h; cases h)
          (by intro h; cases h) hrun w hw
      · rw [if_neg hsp] at hrun
        by_cases hqc : c = '"'
        · rw [if_pos hqc] at hrun
          exact ih .quoted [c] words ws hwords (by intro h; cases h)
            (by intro h; exact ⟨[], by rw [hqc], by simp⟩) hrun w hw
        · rw [if_neg hqc] at hrun
          refine ih .token [c] words ws hwords ?_
            (by intro h; cases h) hrun w hw
          intro h
          refine ⟨?_, by simp⟩
          intro hmem
          simp at hmem
          exact hqc hmem.symm
    | token =>
      obtain ⟨hnq, hne⟩ := htok rfl
      simp only [makeArgsLoop] at hrun
      by_cases hsp : isSpaceC c = true
      · rw [if_pos hsp] at hrun
        refine ih .start word (words ++ [word]) ws ?_ (by intro h; cases h)
          (by intro h; cases h) hrun w hw
        intro x hx
        rcases List.mem_append.mp hx with h | h
        · exact hwords x h
        · simp at h
          subst h
          exact quoteOK_of_no_quote x hnq
      · rw [if_neg hsp] at hrun
        by_cases hqc : c = '"'
        · rw [if_pos hqc] at hrun
          cases hrun
        · rw [if_neg hqc] at hrun
          refine ih .token (word ++ [c]) words ws hwords ?_
            (by intro h; cases h) hrun w hw
          intro h
          constructor
          · intro hmem
            rcases List.mem_append.mp hmem with hm | hm
            · exact hnq hm
            · simp at hm
              exact hqc hm.symm
          · simp
    | quoted =>
      obtain ⟨mid, hmid, hnq⟩ := hq rfl
      simp only [makeArgsLoop] at hrun
      by_cases hqc : c = '"'
      · rw [if_pos hqc] at hrun
        refine ih .endq [] (words ++ [word ++ [c]]) ws ?_ (by intro h; cases h)
          (by intro h; cases h) hrun w hw
        intro x hx
        rcases List.mem_append.mp hx with h | h
        · exact hwords x h
        · simp at h
          subst h
          rw [hmid, hqc]
          exact quoteOK_quoted mid hnq
      · rw [if_neg hqc] at hrun
        refine ih .quoted (word ++ [c]) words ws hwords (by intro h; cases h) ?_ hrun w hw
        intro h
        refine ⟨mid ++ [c], by rw [hmid]; simp, ?_⟩
        simp [hnq]
        intro hcq
        exact hqc hcq.symm
    | endq =>
      simp only [makeArgsLoop] at hrun
      by_cases hsp : isSpaceC c = true
      · rw [if_pos hsp] at hrun
        exact ih .start word words ws hwords (by intro h; cases h)
          (by intro h; cases h) hrun w hw
      · rw [if_neg hsp] at hrun
        cases hrun

/-- An invalid word anywhere in the argument list makes the expansion loop
throw, and the invalid word is never handed to the expander. -/
theorem shellExpansionArgs_invalid (p : Pos) :
    ∀ (ws : List (List Char)) (w : List Char), w ∈ ws → wordType w = .invalid_ →
      (∃ e, shellExpansionArgs p ws = .error e) ∧ w ∉ expandedWords ws := by
  intro ws
  induction ws with
  | nil =>
    intro w hw
    simp at hw
  | cons x rest ih =>
    intro w hw hinv
    rcases List.mem_cons.mp hw with hwx | hwr
    · subst hwx
      constructor
      · exact ⟨"shellExpansion: invalid argument",
          by simp [shellExpansionArgs, argExpand1, hinv]⟩
      · simp [expandedWords, hinv]
    · cases hx : wordType x with
      | invalid_ =>
        constructor
        · exact ⟨"shellExpansion: invalid argument",
            by simp [shellExpansionArgs, argExpand1, hx]⟩
        · simp [expandedWords, hx]
      | plain_ =>
        obtain ⟨⟨e, herr⟩, hmem⟩ := ih w hwr hinv
        constructor
        · exact ⟨e, by simp [shellExpansionArgs, argExpand1, hx, herr]⟩
        · simp only [expandedWords, hx]
          exact hmem
      | quoted_ =>
        obtain ⟨⟨e, herr⟩, hmem⟩ := ih w hwr hinv
        constructor
        · exact ⟨e, by simp [shellExpansionArgs, argExpand1, hx, herr]⟩
        · simp only [expandedWords, hx]
          exact hmem
      | pattern_ =>
        obtain ⟨⟨e, herr⟩, hmem⟩ := ih w hwr hinv
        constructor
        · refine ⟨e, ?_⟩
          simp only [shellExpansionArgs, argExpand1, hx, herr]
        · simp only [expandedWords, hx]
          intro hcon
          rcases List.mem_cons.mp hcon with hcx | hcr
          · rw [hcx] at hinv
            rw [hx] at hinv
            cases hinv
          · exact hmem hcr

/-- C9 (claim): a malformed argument word is rejected before any expansion.
(1) Quote malformations — an unmatched `"`, a quote in mid-token, or a
non-space right after a closing quote — cannot survive tokenization: every
word of a successful `makeArgs` run is quote-well-formed (`makeArgs` throws
otherwise).  (2) A word that `wordType` classifies invalid (unmatched or
nested `[`/`]`, or a bad quote shape) makes the expansion loop throw
"invalid argument", and that word is never handed to the tree-walking
expander. -/
theorem c9_malformed_word_rejected :
    (∀ (line : List Char) (ws : List (List Char)), makeArgs line = .ok ws →
       ∀ w ∈ ws, quoteOK w) ∧
    (∀ (p : Pos) (ws : List (List Char)) (w : List Char), w ∈ ws →
       wordType w = .invalid_ →
       (∃ e, shellExpansionArgs p ws = .error e) ∧ w ∉ expandedWords ws) := by
  constructor
  · intro line ws hrun w hw
    exact makeArgsLoop_quoteOK line .start [] [] ws (by intro x hx; cases hx)
      (by intro h; cases h) (by intro h; cases h) hrun w hw
  · exact shellExpansionArgs_invalid

/-- C9 witness: the line `ls a[b` tokenizes into quote-well-formed words,
and the word `a[b` (an unclosed `[`) makes the expansion loop throw before
that word is ever expanded. -/
theorem c9_malformed_word_rejected_witness :
    (quoteOK ['l', 's'] ∧ quoteOK ['a', '[', 'b']) ∧
    (∃ e, shellExpansionArgs ⟨[], sampleB⟩ [['l', 's'], ['a', '[', 'b']] = .error e) ∧
    ['a', '[', 'b'] ∉ expandedWords [['l', 's'], ['a', '[', 'b']] := by
  have hrun : makeArgs ['l', 's', ' ', 'a', '[', 'b'] =
      .ok [['l', 's'], ['a', '[', 'b']] := rfl
  have h1 := c9_malformed_word_rejected.1 ['l', 's', ' ', 'a', '[', 'b'] _ hrun
  have h2 := c9_malformed_word_rejected.2 ⟨[], sampleB⟩ [['l', 's'], ['a', '[', 'b']]
    ['a', '[', 'b'] (by simp) rfl
  exact ⟨⟨h1 _ (by simp), h1 _ (by simp)⟩, h2.1, h2.2⟩

/-- Structural strong induction for `Node` through the child list. -/
theorem Node.strongInduction (P : Node → Prop)
    (ih : ∀ n : Node, (∀ e ∈ n.children, P e.2) → P n) : ∀ n, P n := by
  have hk : ∀ (k : Nat) (n : Node), sizeOf n ≤ k → P n := by
    intro k
    induction k with
    | zero =>
      intro n hn
      cases n with
      | mk d cs => simp at hn
    | succ k ihk =>
      intro n hn
      apply ih
      intro e he
      apply ihk
      have := sizeOf_child_lt n e he
      omega
  exact fun n => hk (sizeOf n) n le_rfl

theorem dfs_neg {σ : Type} (v : Visitor σ) (maxL : Nat) (s : σ) (n : Node) (sd : Nat)
    (h : ¬ v.lvl s < maxL) : dfs v maxL s n sd = (s, n, []) := by
  rw [dfs]
  simp [h]

theorem dfs_pos {σ : Type} (v : Visitor σ) (maxL : Nat) (s : σ) (n : Node) (sd : Nat)
    (h : v.lvl s < maxL) :
    dfs v maxL s n sd =
      ((v.onExit (if (v.visit s n).2.2 then dfsKids v maxL (v.visit s n).1 n.children (sd + 1)
          else ((v.visit s n).1, n.children, [])).1
        (Node.mk (v.visit s n).2.1
          (if (v.visit s n).2.2 then dfsKids v maxL (v.visit s n).1 n.children (sd + 1)
            else ((v.visit s n).1, n.children, [])).2.1)).1,
       Node.mk
         (v.onExit (if (v.visit s n).2.2 then dfsKids v maxL (v.visit s n).1 n.children (sd + 1)
              else ((v.visit s n).1, n.children, [])).1
           (Node.mk (v.visit s n).2.1
             (if (v.visit s n).2.2 then dfsKids v maxL (v.visit s n).1 n.children (sd + 1)
               else ((v.visit s n).1, n.children, [])).2.1)).2
         (if (v.visit s n).2.2 then dfsKids v maxL (v.visit s n).1 n.children (sd + 1)
            else ((v.visit s n).1, n.children, [])).2.1,
       Ev.mk true n.data.name (v.lvl s) sd ::
         ((if (v.visit s n).2.2 then dfsKids v maxL (v.visit s n).1 n.children (sd + 1)
             else ((v.visit s n).1, n.children, [])).2.2 ++
           [Ev.mk false n.data.name
             (v.lvl (if (v.visit s n).2.2 then dfsKids v maxL (v.visit s n).1 n.children (sd + 1)
                 else ((v.visit s n).1, n.children, [])).1) sd])) := by
  rw [dfs]
  simp [h]

theorem dfsKids_nil {σ : Type} (v : Visitor σ) (maxL : Nat) (s : σ) (sd : Nat) :
    dfsKids v maxL s [] sd = (s, [], []) := by
  rw [dfsKids]

theorem dfsKids_cons {σ : Type} (v : Visitor σ) (maxL : Nat) (s : σ) (k : String)
    (c : Node) (rest : List (String × Node)) (sd : Nat) :
    dfsKids v maxL s ((k, c) :: rest) sd =
      ((dfsKids v maxL (dfs v maxL s c sd).1 rest sd).1,
       (k, (dfs v maxL s c sd).2.1) :: (dfsKids v maxL (dfs v maxL s c sd).1 rest sd).2.1,
       (dfs v maxL s c sd).2.2 ++ (dfsKids v maxL (dfs v maxL s c sd).1 rest sd).2.2) := by
  rw [dfsKids]

theorem dfsKids_counts {σ : Type} (v : Visitor σ) (maxL : Nat) :
    ∀ (cs : List (String × Node)),
      (∀ e ∈ cs, ∀ (s : σ) (sd : Nat),
        ((dfs v maxL s e.2 sd).2.2).countP (fun e => e.isVisit) =
        ((dfs v maxL s e.2 sd).2.2).countP (fun e => !e.isVisit)) →
      ∀ (s : σ) (sd : Nat),
        ((dfsKids v maxL s cs sd).2.2).countP (fun e => e.isVisit) =
        ((dfsKids v maxL s cs sd).2.2).countP (fun e => !e.isVisit) := by
  intro cs
  induction cs with
  | nil =>
    intro h s sd
    simp [dfsKids_nil]
  | cons hd tl ih =>
    intro h s sd
    obtain ⟨k, c⟩ := hd
    rw [dfsKids_cons]
    simp only [List.countP_append]
    have h1 := h (k, c) (List.mem_cons_self _ _) s sd
    simp only at h1
    have h2 := ih (fun e he s sd => h e (List.mem_cons_of_mem _ he) s sd)
      (dfs v maxL s c sd).1 sd
    omega

/-- In every depth-first run the number of `visit` calls equals the number
of `onExit` calls. -/
theorem dfs_counts {σ : Type} (v : Visitor σ) (maxL : Nat) :
    ∀ (n : Node) (s : σ) (sd : Nat),
      ((dfs v maxL s n sd).2.2).countP (fun e => e.isVisit) =
      ((dfs v maxL s n sd).2.2).countP (fun e => !e.isVisit) := by
  have main : ∀ n : Node, ∀ (s : σ) (sd : Nat),
      ((dfs v maxL s n sd).2.2).countP (fun e => e.isVisit) =
      ((dfs v maxL s n sd).2.2).countP (fun e => !e.isVisit) := by
    intro n
    induction n using Node.strongInduction with
    | ih n hch =>
      intro s sd
      by_cases hg : v.lvl s < maxL
      · rw [dfs]
        simp only [if_pos hg]
        by_cases hc : (v.visit s n).2.2 = true
        · simp only [hc, if_true]
          simp only [List.countP_cons, List.countP_append]
          have hk := dfsKids_counts v maxL n.children
            (fun e he s sd => hch e he s sd) (v.visit s n).1 (sd + 1)
          simp [Ev.isVisit] at hk ⊢
          omega
        · simp only [Bool.not_eq_true] at hc
          simp only [hc, Bool.false_eq_true, if_false]
          simp [List.countP_cons]
      · rw [dfs_neg v maxL s n sd hg]
        simp
  exact main

theorem dfsKids_guard {σ : Type} (v : Visitor σ) (maxL : Nat) :
    ∀ (cs : List (String × Node)),
      (∀ e ∈ cs, ∀ (s : σ) (sd : Nat), ∀ ev ∈ (dfs v maxL s e.2 sd).2.2,
        ev.isVisit = true → ev.lvl < maxL) →
      ∀ (s : σ) (sd : Nat), ∀ ev ∈ (dfsKids v maxL s cs sd).2.2,
        ev.isVisit = true → ev.lvl < maxL := by
  intro cs
  induction cs with
  | nil =>
    intro h s sd ev hev
    simp [dfsKids_nil] at hev
  | cons hd tl ih =>
    intro h s sd ev hev hvis
    obtain ⟨k, c⟩ := hd
    rw [dfsKids_cons] at hev
    simp only at hev
    rcases List.mem_append.mp hev with hm | hm
    · exact h (k, c) (List.mem_cons_self _ _) s sd ev hm hvis
    · exact ih (fun e he => h e (List.mem_cons_of_mem _ he))
        (dfs v maxL s c sd).1 sd ev hm hvis

/-- Every `visit` call happens while the visitor's level counter is
strictly below the bound. -/
theorem dfs_guard {σ : Type} (v : Visitor σ) (maxL : Nat) :
    ∀ (n : Node) (s : σ) (sd : Nat), ∀ ev ∈ (dfs v maxL s n sd).2.2,
      ev.isVisit = true → ev.lvl < maxL := by
  intro n
  induction n using Node.strongInduction with
  | ih n hch =>
    intro s sd ev hev hvis
    by_cases hg : v.lvl s < maxL
    · rw [dfs] at hev
      simp only [if_pos hg] at hev
      rcases List.mem_cons.mp hev with hm | hm
      · rw [hm] at hvis ⊢
        exact hg
      · rcases List.mem_append.mp hm with hm2 | hm2
        · by_cases hc : (v.visit s n).2.2 = true
          · rw [if_pos hc] at hm2
            exact dfsKids_guard v maxL n.children
              (fun e he s sd => hch e he s sd) (v.visit s n).1 (sd + 1) ev hm2 hvis
          · simp only [Bool.not_eq_true] at hc
            simp [hc] at hm2
        · simp at hm2
          rw [hm2] at hvis
          simp [Ev.isVisit] at hvis
    · rw [dfs_neg v maxL s n sd hg] at hev
      simp at hev

theorem dfsKids_sd_ge {σ : Type} (v : Visitor σ) (maxL : Nat) :
    ∀ (cs : List (String × Node)),
      (∀ e ∈ cs, ∀ (s : σ) (sd : Nat), ∀ ev ∈ (dfs v maxL s e.2 sd).2.2, sd ≤ ev.sd) →
      ∀ (s : σ) (sd : Nat), ∀ ev ∈ (dfsKids v maxL s cs sd).2.2, sd ≤ ev.sd := by
  intro cs
  induction cs with
  | nil =>
    intro h s sd ev hev
    simp [dfsKids_nil] at hev
  | cons hd tl ih =>
    intro h s sd ev hev
    obtain ⟨k, c⟩ := hd
    rw [dfsKids_cons] at hev
    simp only at hev
    rcases List.mem_append.mp hev with hm | hm
    · exact h (k, c) (List.mem_cons_self _ _) s sd ev hm
    · exact ih (fun e he => h e (List.mem_cons_of_mem _ he)) (dfs v maxL s c sd).1 sd ev hm

/-- Every event of a run started at structural depth `sd` is at depth at
least `sd`. -/
theorem dfs_sd_ge {σ : Type} (v : Visitor σ) (maxL : Nat) :
    ∀ (n : Node) (s : σ) (sd : Nat), ∀ ev ∈ (dfs v maxL s n sd).2.2, sd ≤ ev.sd := by
  intro n
  induction n using Node.strongInduction with
  | ih n hch =>
    intro s sd ev hev
    by_cases hg : v.lvl s < maxL
    · rw [dfs] at hev
      simp only [if_pos hg] at hev
      rcases List.mem_cons.mp hev with hm | hm
      · rw [hm]
      · rcases List.mem_append.mp hm with hm2 | hm2
        · by_cases hc : (v.visit s n).2.2 = true
          · rw [if_pos hc] at hm2
            have := dfsKids_sd_ge v maxL n.children
              (fun e he s sd => hch e he s sd) (v.visit s n).1 (sd + 1) ev hm2
            omega
          · simp only [Bool.not_eq_true] at hc
            simp [hc] at hm2
        · simp at hm2
          rw [hm2]
    · rw [dfs_neg v maxL s n sd hg] at hev
      simp at hev

/-- At its own starting depth, a run contributes exactly its root's visit
(when the guard passed) and nothing else. -/
theorem dfs_visits_at_own_depth {σ : Type} (v : Visitor σ) (maxL : Nat)
    (n : Node) (s : σ) (sd : Nat) :
    (((dfs v maxL s n sd).2.2).filter (fun e => e.isVisit && e.sd == sd)).map Ev.nm =
      if v.lvl s < maxL then [n.data.name] else [] := by
  by_cases hg : v.lvl s < maxL
  · rw [dfs]
    simp only [if_pos hg]
    rw [List.filter_cons]
    have hkids : ∀ ev ∈ (if (v.visit s n).2.2 then
        dfsKids v maxL (v.visit s n).1 n.children (sd + 1)
        else ((v.visit s n).1, n.children, [])).2.2, sd + 1 ≤ ev.sd := by
      by_cases hc : (v.visit s n).2.2 = true
      · rw [if_pos hc]
        exact dfsKids_sd_ge v maxL n.children
          (fun e he s sd => dfs_sd_ge v maxL e.2 s sd) (v.visit s n).1 (sd + 1)
      · simp only [Bool.not_eq_true] at hc
        simp [hc]
    have hfk : ((if (v.visit s n).2.2 then
        dfsKids v maxL (v.visit s n).1 n.children (sd + 1)
        else ((v.visit s n).1, n.children, [])).2.2 ++
          [Ev.mk false n.data.name
            (v.lvl (if (v.visit s n).2.2 then
              dfsKids v maxL (v.visit s n).1 n.children (sd + 1)
              else ((v.visit s n).1, n.children, [])).1) sd]).filter
          (fun e => e.isVisit && e.sd == sd) = [] := by
      rw [List.filter_append]
      rw [List.filter_eq_nil_iff.mpr, List.filter_eq_nil_iff.mpr]
      · simp
      · intro a ha
        simp at ha
        rw [ha]
        simp [Ev.isVisit]
      · intro a ha
        have := hkids a ha
        simp [Ev.isVisit, Ev.sd]
        intro hv
        omega
    rw [hfk]
    simp [Ev.isVisit, Ev.sd, Ev.nm]
  · rw [dfs_neg v maxL s n sd hg]
    simp [hg]

/-- The visits contributed at the children's depth are the visited
children's names, in child-list order (a sublist: a child whose guard
failed contributes nothing). -/
theorem dfsKids_visits_sublist {σ : Type} (v : Visitor σ) (maxL : Nat) :
    ∀ (cs : List (String × Node)) (s : σ) (sd : Nat),
      ((((dfsKids v maxL s cs sd).2.2).filter
          (fun e => e.isVisit && e.sd == sd)).map Ev.nm).Sublist
        (cs.map (fun kc => kc.2.data.name)) := by
  intro cs
  induction cs with
  | nil =>
    intro s sd
    simp [dfsKids_nil]
  | cons hd tl ih =>
    intro s sd
    obtain ⟨k, c⟩ := hd
    rw [dfsKids_cons]
    simp only [List.filter_append, List.map_append, List.map_cons]
    have hhd := dfs_visits_at_own_depth v maxL c s sd
    rw [hhd]
    by_cases hg : v.lvl s < maxL
    · rw [if_pos hg]
      exact List.Sublist.cons₂ _ (ih (dfs v maxL s c sd).1 sd)
    · rw [if_neg hg]
      simp only [List.nil_append]
      exact List.Sublist.cons _ (ih (dfs v maxL s c sd).1 sd)

theorem dfsKids_levelTracking {σ : Type} (v : Visitor σ) (maxL : Nat)
    (hLT : LevelTracking v) :
    ∀ (cs : List (String × Node)),
      (∀ e ∈ cs, ∀ (s : σ) (sd : Nat),
        v.lvl (dfs v maxL s e.2 sd).1 = v.lvl s ∧
        ∀ ev ∈ (dfs v maxL s e.2 sd).2.2, ev.isVisit = true →
          ev.lvl + sd = v.lvl s + ev.sd) →
      ∀ (s : σ) (sd : Nat),
        v.lvl (dfsKids v maxL s cs sd).1 = v.lvl s ∧
        ∀ ev ∈ (dfsKids v maxL s cs sd).2.2, ev.isVisit = true →
          ev.lvl + sd = v.lvl s + ev.sd := by
  intro cs
  induction cs with
  | nil =>
    intro h s sd
    simp [dfsKids_nil]
  | cons hd tl ih =>
    intro h s sd
    obtain ⟨k, c⟩ := hd
    have hc := h (k, c) (List.mem_cons_self _ _)
    simp only at hc
    have htl := ih (fun e he => h e (List.mem_cons_of_mem _ he)) (dfs v maxL s c sd).1 sd
    rw [dfsKids_cons]
    simp only
    constructor
    · rw [htl.1, (hc s sd).1]
    · intro ev hev hvis
      rcases List.mem_append.mp hev with hm | hm
      · exact (hc s sd).2 ev hm hvis
      · rw [htl.2 ev hm hvis, (hc s sd).1]

/-- With a level-maintaining visitor, the run restores the level counter,
and at every visit the counter's offset from its entry value equals the
node's structural-depth offset. -/
theorem dfs_levelTracking {σ : Type} (v : Visitor σ) (maxL : Nat)
    (hLT : LevelTracking v) :
    ∀ (n : Node) (s : σ) (sd : Nat),
      v.lvl (dfs v maxL s n sd).1 = v.lvl s ∧
      ∀ ev ∈ (dfs v maxL s n sd).2.2, ev.isVisit = true →
        ev.lvl + sd = v.lvl s + ev.sd := by
  intro n
  induction n using Node.strongInduction with
  | ih n hch =>
    intro s sd
    by_cases hg : v.lvl s < maxL
    · have hkids :
          v.lvl (if (v.visit s n).2.2 then
              dfsKids v maxL (v.visit s n).1 n.children (sd + 1)
              else ((v.visit s n).1, n.children, [])).1 = v.lvl (v.visit s n).1 ∧
          ∀ ev ∈ (if (v.visit s n).2.2 then
              dfsKids v maxL (v.visit s n).1 n.children (sd + 1)
              else ((v.visit s n).1, n.children, [])).2.2, ev.isVisit = true →
            ev.lvl + (sd + 1) = v.lvl (v.visit s n).1 + ev.sd := by
        by_cases hc : (v.visit s n).2.2 = true
        · rw [if_pos hc]
          exact dfsKids_levelTracking v maxL hLT n.children
            (fun e he s sd => hch e he s sd) (v.visit s n).1 (sd + 1)
        · simp only [Bool.not_eq_true] at hc
          simp [hc]
      rw [dfs]
      simp only [if_pos hg]
      constructor
      · rw [hLT.2, hkids.1, hLT.1]
        omega
      · intro ev hev hvis
        rcases List.mem_cons.mp hev with hm | hm
        · rw [hm]
        · rcases List.mem_append.mp hm with hm2 | hm2
          · have h1 := hkids.2 ev hm2 hvis
            rw [hLT.1] at h1
            omega
          · simp at hm2
            rw [hm2] at hvis
            simp [Ev.isVisit] at hvis
    · rw [dfs_neg v maxL s n sd hg]
      simp

theorem wfNamesB_iff (n : Node) :
    wfNamesB n = true ↔ ∀ e ∈ n.children, e.2.data.name = e.1 ∧ wfNamesB e.2 = true := by
  rw [wfNamesB]
  simp [List.all_eq_true, List.mem_attach, Subtype.forall]

/-- C5 (claim): in a depth-bounded depth-first run, (1) the numbers of
`visit` and `onExit` calls are equal; (2) `visit` fires only while the
visitor's depth counter is strictly below the bound; (3) the driver descends
into the children in child-map (ascending key) order — the sequence of
direct-child visits is a sublist of the child keys in order; (4) for a
visitor that maintains the level invariant and starts with its counter equal
to the start depth, no node at structural depth ≥ the bound is ever
visited. -/
theorem c5_dfs_bounded_balanced {σ : Type} (v : Visitor σ) (maxL : Nat)
    (n : Node) (s : σ) (sd : Nat) :
    (((dfs v maxL s n sd).2.2).countP (fun e => e.isVisit) =
      ((dfs v maxL s n sd).2.2).countP (fun e => !e.isVisit)) ∧
    (∀ ev ∈ (dfs v maxL s n sd).2.2, ev.isVisit = true → ev.lvl < maxL) ∧
    (wfNamesB n = true →
      ((((dfs v maxL s n sd).2.2).filter (fun e => e.isVisit && e.sd == sd + 1)).map
          Ev.nm).Sublist (n.children.map (fun kc => kc.1))) ∧
    (LevelTracking v → v.lvl s = sd →
      ∀ ev ∈ (dfs v maxL s n sd).2.2, ev.isVisit = true → ev.sd < maxL) := by
  refine ⟨dfs_counts v maxL n s sd, dfs_guard v maxL n s sd, ?_, ?_⟩
  · intro hwf
    have hnames : n.children.map (fun kc => kc.2.data.name) =
        n.children.map (fun kc => kc.1) := by
      apply List.map_congr_left
      intro e he
      exact ((wfNamesB_iff n).mp hwf e he).1
    by_cases hg : v.lvl s < maxL
    · rw [dfs]
      simp only [if_pos hg]
      rw [List.filter_cons]
      have hroot : ((Ev.mk true n.data.name (v.lvl s) sd).isVisit &&
          (Ev.mk true n.data.name (v.lvl s) sd).sd == sd + 1) = false := by
        simp [Ev.isVisit, Ev.sd]
      rw [if_neg (by simp [hroot])]
      rw [List.filter_append]
      have hexit : (List.filter (fun e => e.isVisit && e.sd == sd + 1)
          [Ev.mk false n.data.name
            (v.lvl (if (v.visit s n).2.2 then
                dfsKids v maxL (v.visit s n).1 n.children (sd + 1)
                else ((v.visit s n).1, n.children, [])).1) sd]) = [] := by
        simp [Ev.isVisit]
      rw [hexit, List.append_nil]
      by_cases hc : (v.visit s n).2.2 = true
      · rw [if_pos hc]
        rw [← hnames]
        exact dfsKids_visits_sublist v maxL n.children (v.visit s n).1 (sd + 1)
      · simp only [Bool.not_eq_true] at hc
        simp [hc]
    · rw [dfs_neg v maxL s n sd hg]
      simp
  · intro hLT hinit ev hev hvis
    have h1 := dfs_guard v maxL n s sd ev hev hvis
    have h2 := (dfs_levelTracking v maxL hLT n s sd).2 ev hev hvis
    rw [hinit] at h2
    omega

/-- C5 witness: the theorem instantiated with a concrete level-tracking
visitor, the sample tree, and bound 3. -/
theorem c5_dfs_bounded_balanced_witness :
    (((dfs CountV 3 0 sampleT 0).2.2).countP (fun e => e.isVisit) =
      ((dfs CountV 3 0 sampleT 0).2.2).countP (fun e => !e.isVisit)) ∧
    (∀ ev ∈ (dfs CountV 3 0 sampleT 0).2.2, ev.isVisit = true → ev.lvl < 3) ∧
    ((((dfs CountV 3 0 sampleT 0).2.2).filter
        (fun e => e.isVisit && e.sd == 0 + 1)).map Ev.nm).Sublist
      (sampleT.children.map (fun kc => kc.1)) ∧
    (∀ ev ∈ (dfs CountV 3 0 sampleT 0).2.2, ev.isVisit = true → ev.sd < 3) := by
  have hwfB : wfNamesB sampleT = true := by
    rw [wfNamesB_iff]
    intro e he
    simp [sampleT] at he
    subst he
    refine ⟨by simp [sampleA], ?_⟩
    rw [wfNamesB_iff]
    intro e2 he2
    simp [sampleA] at he2
    subst he2
    refine ⟨by simp [leafN], ?_⟩
    rw [wfNamesB_iff]
    intro e3 he3
    simp [leafN] at he3
  have h := c5_dfs_bounded_balanced CountV 3 sampleT 0 0
  exact ⟨h.1, h.2.1, h.2.2.1 hwfB,
    h.2.2.2 ⟨fun s n => rfl, fun s n => rfl⟩ rfl⟩

theorem foldl_max_init_le {α : Type} (f : α → Nat) :
    ∀ (l : List α) (init : Nat), init ≤ l.foldl (fun m x => max m (f x)) init := by
  intro l
  induction l with
  | nil => intro init; simp
  | cons a l ih =>
    intro init
    simp only [List.foldl_cons]
    exact le_trans (le_max_left _ _) (ih _)

theorem le_foldl_max {α : Type} (f : α → Nat) :
    ∀ (l : List α) (a : α), a ∈ l → ∀ init, f a ≤ l.foldl (fun m x => max m (f x)) init := by
  intro l
  induction l with
  | nil =>
    intro a ha
    simp at ha
  | cons b l ih =>
    intro a ha init
    rcases List.mem_cons.mp ha with h | h
    · subst h
      simp only [List.foldl_cons]
      exact le_trans (le_max_right _ _) (foldl_max_init_le f l _)
    · simp only [List.foldl_cons]
      exact ih a h _

theorem heightN_child (n : Node) (e : String × Node) (he : e ∈ n.children) :
    1 + heightN e.2 ≤ heightN n := by
  conv_rhs => rw [heightN]
  have := le_foldl_max (fun c : {x // x ∈ n.children} => 1 + heightN c.1.2)
    n.children.attach ⟨e, he⟩ (List.mem_attach _ _) 0
  simpa using this

theorem levelsOKB_iff (n : Node) (k : Nat) :
    levelsOKB n k = true ↔
      (n.data.level = k ∧ ∀ e ∈ n.children, levelsOKB e.2 (k + 1) = true) := by
  rw [levelsOKB]
  simp [List.all_eq_true, List.mem_attach, Subtype.forall]

theorem dfsKids_LevelV :
    ∀ (cs : List (String × Node)),
      (∀ e ∈ cs, ∀ d : Nat, d + heightN e.2 < maxLevelDefault →
        (dfs LevelV maxLevelDefault d e.2 d).1 = d ∧
        levelsOKB (dfs LevelV maxLevelDefault d e.2 d).2.1 d = true) →
      ∀ d : Nat, (∀ e ∈ cs, d + heightN e.2 < maxLevelDefault) →
        (dfsKids LevelV maxLevelDefault d cs d).1 = d ∧
        ∀ e ∈ (dfsKids LevelV maxLevelDefault d cs d).2.1,
          levelsOKB e.2 d = true := by
  intro cs
  induction cs with
  | nil =>
    intro h d hh
    rw [dfsKids_nil]
    exact ⟨rfl, by intro e he; simp at he⟩
  | cons hd tl ih =>
    intro h d hh
    obtain ⟨k, c⟩ := hd
    have hc := h (k, c) (List.mem_cons_self _ _) d (hh (k, c) (List.mem_cons_self _ _))
    simp only at hc
    rw [dfsKids_cons]
    simp only
    rw [hc.1]
    have htl := ih (fun e he => h e (List.mem_cons_of_mem _ he)) d
      (fun e he => hh e (List.mem_cons_of_mem _ he))
    refine ⟨htl.1, ?_⟩
    intro e he
    rcases List.mem_cons.mp he with hm | hm
    · rw [hm]
      exact hc.2
    · exact htl.2 e hm

/-- Running `Level` depth-first from a node whose depth-plus-height stays
below the `size_t` bound restores the counter and stamps every level field
in the subtree with its structural depth. -/
theorem dfs_LevelV :
    ∀ (n : Node) (d : Nat), d + heightN n < maxLevelDefault →
      (dfs LevelV maxLevelDefault d n d).1 = d ∧
      levelsOKB (dfs LevelV maxLevelDefault d n d).2.1 d = true := by
  intro n
  induction n using Node.strongInduction with
  | ih n hch =>
    intro d hh
    have hg : LevelV.lvl d < maxLevelDefault := by
      simp [LevelV]
      omega
    have hmod1 : (d + 1) % sizeTMod = d + 1 := by
      apply Nat.mod_eq_of_lt
      simp [maxLevelDefault, sizeTMod] at hh ⊢
      omega
    have hkidsh : ∀ e ∈ n.children, (d + 1) + heightN e.2 < maxLevelDefault := by
      intro e he
      have := heightN_child n e he
      omega
    have hkids := dfsKids_LevelV n.children
      (fun e he d hd => hch e he d hd) (d + 1) hkidsh
    have hv1 : (LevelV.visit d n).1 = d + 1 := by
      show (d + 1) % sizeTMod = d + 1
      exact hmod1
    have hv2 : (LevelV.visit d n).2.1 = ⟨n.data.name, d, n.data.idx⟩ := rfl
    have hv3 : (LevelV.visit d n).2.2 = true := rfl
    have he1 : ∀ (s : Nat) (m : Node),
        (LevelV.onExit s m).1 = (s + (sizeTMod - 1)) % sizeTMod := fun _ _ => rfl
    have he2 : ∀ (s : Nat) (m : Node), (LevelV.onExit s m).2 = m.data := fun _ _ => rfl
    rw [dfs]
    simp only [if_pos hg, hv1, hv2, hv3, if_true, he1, he2, Node.data_mk, Node.children_mk]
    rw [hkids.1]
    constructor
    · have h64 : 1 ≤ sizeTMod := by simp [sizeTMod]
      have harr : d + 1 + (sizeTMod - 1) = d + sizeTMod := by omega
      rw [harr, Nat.add_mod_right]
      apply Nat.mod_eq_of_lt
      simp [maxLevelDefault, sizeTMod] at hh ⊢
      omega
    · rw [levelsOKB_iff]
      exact ⟨rfl, hkids.2⟩

/-- C6 (claim): after `setLevel` (level-numbering by depth-first traversal
from the root) every node's stored depth field equals its structural depth —
0 at the root, parent's depth plus one below.  The hypothesis keeps the
walk inside `size_t` range (`maxLevel = -1ul`); it holds for every tree a
real process can build. -/
theorem c6_level_numbering (t : Node) (hh : heightN t < maxLevelDefault) :
    levelsOKB (setLevel t) 0 = true := by
  have h := dfs_LevelV t 0 (by omega)
  rw [setLevel]
  exact h.2

/-- C6 witness: a leaf whose stored level starts out wrong (5) is restamped
to its true depth 0. -/
theorem c6_level_numbering_witness : levelsOKB (setLevel (leafN "r" 5)) 0 = true := by
  apply c6_level_numbering
  have h0 : heightN (leafN "r" 5) = 0 := by
    rw [heightN]
    simp [leafN]
  rw [h0]
  simp [maxLevelDefault]

theorem mem_of_mem_takeWhile {α} (p : α → Bool) :
    ∀ (l : List α) (a : α), a ∈ l.takeWhile p → a ∈ l := by
  intro l
  induction l with
  | nil => intro a ha; simp at ha
  | cons b l ih =>
    intro a ha
    simp only [List.takeWhile] at ha
    cases hpb : p b
    · rw [hpb] at ha
      simp at ha
    · rw [hpb] at ha
      rcases List.mem_cons.mp ha with h | h
      · exact h ▸ List.mem_cons_self _ _
      · exact List.mem_cons_of_mem _ (ih a h)

theorem mem_of_mem_dropWhile {α} (p : α → Bool) :
    ∀ (l : List α) (a : α), a ∈ l.dropWhile p → a ∈ l := by
  intro l
  induction l with
  | nil => intro a ha; simp at ha
  | cons b l ih =>
    intro a ha
    simp only [List.dropWhile] at ha
    cases hpb : p b
    · rw [hpb] at ha
      exact ha
    · rw [hpb] at ha
      exact List.mem_cons_of_mem _ (ih a ha)

theorem takeWhile_append_all {α} (p : α → Bool) :
    ∀ (l1 l2 : List α), (∀ a ∈ l1, p a = true) →
      (l1 ++ l2).takeWhile p = l1 ++ l2.takeWhile p := by
  intro l1
  induction l1 with
  | nil => intro l2 h; simp
  | cons b l ih =>
    intro l2 h
    simp only [List.cons_append, List.takeWhile, h b (List.mem_cons_self _ _),
      List.append_eq]
    rw [ih l2 (fun a ha => h a (List.mem_cons_of_mem _ ha))]

theorem dropWhile_append_all {α} (p : α → Bool) :
    ∀ (l1 l2 : List α), (∀ a ∈ l1, p a = true) →
      (l1 ++ l2).dropWhile p = l2.dropWhile p := by
  intro l1
  induction l1 with
  | nil => intro l2 h; simp
  | cons b l ih =>
    intro l2 h
    simp only [List.cons_append, List.dropWhile, h b (List.mem_cons_self _ _),
      List.append_eq]
    exact ih l2 (fun a ha => h a (List.mem_cons_of_mem _ ha))

theorem takeWhile_all {α} (p : α → Bool) :
    ∀ (l : List α), (∀ a ∈ l, p a = true) → l.takeWhile p = l := by
  intro l h
  have := takeWhile_append_all p l [] h
  simpa using this

theorem dropWhile_all {α} (p : α → Bool) :
    ∀ (l : List α), (∀ a ∈ l, p a = true) → l.dropWhile p = [] := by
  intro l h
  have := dropWhile_append_all p l [] h
  simpa using this

@[simp] theorem segsOf_nil : segsOf [] = [] := by
  rw [segsOf]

theorem segsOf_delim (c : Char) (p : List Char) (h : c = treeDelim) :
    segsOf (c :: p) = segsOf p := by
  rw [segsOf]
  simp [h]

theorem segsOf_cons (c : Char) (p : List Char) (h : c ≠ treeDelim) :
    segsOf (c :: p) =
      (c :: p).takeWhile (fun x => x != treeDelim) ::
        segsOf ((c :: p).dropWhile (fun x => x != treeDelim)) := by
  rw [segsOf]
  simp [h]

theorem takeWhile_pred {α} (p : α → Bool) :
    ∀ (l : List α) (a : α), a ∈ l.takeWhile p → p a = true := by
  intro l
  induction l with
  | nil => intro a ha; simp at ha
  | cons b l ih =>
    intro a ha
    simp only [List.takeWhile] at ha
    cases hpb : p b
    · rw [hpb] at ha
      simp at ha
    · rw [hpb] at ha
      rcases List.mem_cons.mp ha with h | h
      · rw [h]
        exact hpb
      · exact ih a h

/-- Every segment is non-empty and free of the delimiter. -/
theorem segsOf_shape :
    ∀ (k : Nat) (w : List Char), w.length ≤ k →
      ∀ s ∈ segsOf w, s ≠ [] ∧ ∀ c ∈ s, c ≠ treeDelim := by
  intro k
  induction k with
  | zero =>
    intro w hw s hs
    rw [List.length_eq_zero.mp (Nat.le_zero.mp hw)] at hs
    simp at hs
  | succ k ih =>
    intro w hw s hs
    cases w with
    | nil => simp at hs
    | cons c p =>
      by_cases hc : c = treeDelim
      · rw [segsOf_delim c p hc] at hs
        exact ih p (by simp at hw; omega) s hs
      · rw [segsOf_cons c p hc] at hs
        rcases List.mem_cons.mp hs with h | h
        · subst h
          constructor
          · simp only [List.takeWhile]
            have : (c != treeDelim) = true := by simp [hc]
            rw [this]
            simp
          · intro x hx
            have h2 := takeWhile_pred (fun x => x != treeDelim) (c :: p) x hx
            simp at h2
            exact h2
        · have hlen : ((c :: p).dropWhile (fun x => x != treeDelim)).length ≤ k := by
            have h1 := lenDropWhileLe (fun x => x != treeDelim) p
            have : (c != treeDelim) = true := by simp [hc]
            simp only [List.dropWhile, this]
            simp at hw
            omega
          exact ih _ hlen s h

/-- Every character of a segment occurs in the word. -/
theorem segsOf_chars :
    ∀ (k : Nat) (w : List Char), w.length ≤ k →
      ∀ s ∈ segsOf w, ∀ c ∈ s, c ∈ w := by
  intro k
  induction k with
  | zero =>
    intro w hw s hs
    rw [List.length_eq_zero.mp (Nat.le_zero.mp hw)] at hs
    simp at hs
  | succ k ih =>
    intro w hw s hs x hx
    cases w with
    | nil => simp at hs
    | cons c p =>
      by_cases hc : c = treeDelim
      · rw [segsOf_delim c p hc] at hs
        exact List.mem_cons_of_mem _ (ih p (by simp at hw; omega) s hs x hx)
      · rw [segsOf_cons c p hc] at hs
        rcases List.mem_cons.mp hs with h | h
        · subst h
          exact mem_of_mem_takeWhile _ _ _ hx
        · have hlen : ((c :: p).dropWhile (fun x => x != treeDelim)).length ≤ k := by
            have h1 := lenDropWhileLe (fun x => x != treeDelim) p
            have : (c != treeDelim) = true := by simp [hc]
            simp only [List.dropWhile, this]
            simp at hw
            omega
          exact mem_of_mem_dropWhile _ _ _
            (ih _ hlen s h x hx)

@[simp] theorem followLoop_nil (cwd : Pos) : followLoop cwd [] = some cwd := by
  rw [followLoop]

@[simp] theorem segsFollow_nil (q : Pos) : segsFollow q [] = some q := rfl

/-- On a path without `.`/`..` segments, `followLoop` is the plain
child-key walk over the non-empty segments. -/
theorem followLoop_segs :
    ∀ (k : Nat) (w : List Char), w.length ≤ k → ∀ (q : Pos),
      (∀ s ∈ segsOf w, s ≠ ['.'] ∧ s ≠ ['.', '.']) →
      followLoop q w = segsFollow q (segsOf w) := by
  intro k
  induction k with
  | zero =>
    intro w hw q hseg
    rw [List.length_eq_zero.mp (Nat.le_zero.mp hw)]
    simp
  | succ k ih =>
    intro w hw q hseg
    cases w with
    | nil => simp
    | cons c p =>
      by_cases hc : c = treeDelim
      · rw [followLoop]
        rw [if_pos hc, segsOf_delim c p hc]
        rw [segsOf_delim c p hc] at hseg
        exact ih p (by simp at hw; omega) q hseg
      · have htw := segsOf_cons c p hc
        have hhd : (c :: p).takeWhile (fun x => x != treeDelim) ∈ segsOf (c :: p) := by
          rw [htw]
          exact List.mem_cons_self _ _
        have hdot := hseg _ hhd
        rw [followLoop, if_neg hc, if_neg hdot.1, if_neg hdot.2, htw]
        have hlen : ((c :: p).dropWhile (fun x => x != treeDelim)).length ≤ k := by
          have h1 := lenDropWhileLe (fun x => x != treeDelim) p
          have hcb : (c != treeDelim) = true := by simp [hc]
          simp only [List.dropWhile, hcb]
          simp at hw
          omega
        have hsegr : ∀ s ∈ segsOf ((c :: p).dropWhile (fun x => x != treeDelim)),
            s ≠ ['.'] ∧ s ≠ ['.', '.'] := by
          intro s hs
          apply hseg
          rw [htw]
          exact List.mem_cons_of_mem _ hs
        cases hf : childFind q.cur.children
            (String.mk ((c :: p).takeWhile (fun x => x != treeDelim))) with
        | none => simp [segsFollow, hf]
        | some child =>
          simp only [segsFollow, hf]
          exact ih _ hlen _ hsegr

/-- On wildcard-free input the token translation is the identity and the
token is classified plain. -/
theorem adjustPattern_no_wild :
    ∀ (w : List Char) (d : Char),
      (∀ c ∈ w, c ≠ '*' ∧ c ≠ '?' ∧ c ≠ '[' ∧ c ≠ ']') →
      (adjustPattern w d).1 = w.takeWhile (fun c => c != d) ∧
      (adjustPattern w d).2.2.1 = false := by
  intro w
  induction w with
  | nil => intro d h; simp [adjustPattern]
  | cons c cs ih =>
    intro d h
    have hch := h c (List.mem_cons_self _ _)
    have ihr := ih d (fun x hx => h x (List.mem_cons_of_mem _ hx))
    by_cases hc : c = d
    · simp only [adjustPattern, if_pos hc]
      constructor
      · simp only [List.takeWhile]
        have : (c != d) = false := by simp [hc]
        rw [this]
      · trivial
    · simp only [adjustPattern, if_neg hc]
      constructor
      · rw [if_neg hch.1]
        simp only [List.takeWhile]
        have : (c != d) = true := by simp [hc]
        rw [this]
        simp [ihr.1]
      · simp [ihr.2, hch.1, hch.2.1, hch.2.2.1, hch.2.2.2]

/-- On a wildcard-free word without `.`/`..` segments, glob expansion is the
same child-key walk as literal resolution: it yields the one path made of
the walked names when the walk succeeds and nothing when it fails. -/
theorem expandAux_segs :
    ∀ (k : Nat) (w : List Char), w.length ≤ k → ∀ (q : Pos) (sofar : List String),
      wfNamesB q.cur = true →
      (∀ c ∈ w, c ≠ '*' ∧ c ≠ '?' ∧ c ≠ '[' ∧ c ≠ ']') →
      (∀ s ∈ segsOf w, s ≠ ['.'] ∧ s ≠ ['.', '.']) →
      expandAux q w sofar =
        (match segsFollow q (segsOf w) with
         | some _ => mkPath (sofar ++ (segsOf w).map String.mk)
         | none => []) := by
  intro k
  induction k with
  | zero =>
    intro w hw q sofar hwf hch hseg
    rw [List.length_eq_zero.mp (Nat.le_zero.mp hw)]
    rw [expandAux]
    simp
  | succ k ih =>
    intro w hw q sofar hwf hch hseg
    cases w with
    | nil =>
      rw [expandAux]
      simp
    | cons c p =>
      by_cases hc : c = treeDelim
      · have htok : (adjustPattern (c :: p) treeDelim).1 = [] :=
          (adjustPattern_tok_nil _ _).mpr (Or.inr (by simp [hc]))
        have hrest : (adjustPattern (c :: p) treeDelim).2.1 = c :: p :=
          adjustPattern_rest_self _ _ htok
        rw [expandAux]
        rw [dif_neg (show ¬(c :: p = []) from List.cons_ne_nil c p)]
        rw [dif_neg (show ¬((adjustPattern (c :: p) treeDelim).1 ≠ []) from by
          rw [htok]; simp)]
        rw [hrest]
        show expandAux q p sofar = _
        rw [segsOf_delim c p hc] at hseg ⊢
        exact ih p (by simp at hw; omega) q sofar hwf
          (fun x hx => hch x (List.mem_cons_of_mem _ hx)) hseg
      · have hnw := adjustPattern_no_wild (c :: p) treeDelim hch
        have htw := segsOf_cons c p hc
        have hhd : (c :: p).takeWhile (fun x => x != treeDelim) ∈ segsOf (c :: p) := by
          rw [htw]
          exact List.mem_cons_self _ _
        have hdot := hseg _ hhd
        have hcb : (c != treeDelim) = true := by simp [hc]
        have htokval : (adjustPattern (c :: p) treeDelim).1 =
            (c :: p).takeWhile (fun x => x != treeDelim) := hnw.1
        have htokne : (adjustPattern (c :: p) treeDelim).1 ≠ [] := by
          rw [htokval]
          simp only [List.takeWhile, hcb]
          simp
        have hrest : (adjustPattern (c :: p) treeDelim).2.1 =
            (c :: p).dropWhile (fun x => x != treeDelim) := adjustPattern_rest _ _
        rw [expandAux]
        rw [dif_neg (show ¬(c :: p = []) from List.cons_ne_nil c p)]
        rw [dif_pos htokne]
        rw [if_pos hnw.2]
        rw [if_neg (show ¬((adjustPattern (c :: p) treeDelim).1 = ['.']) from by
          rw [htokval]; exact hdot.1)]
        rw [if_neg (show ¬((adjustPattern (c :: p) treeDelim).1 = ['.', '.']) from by
          rw [htokval]; exact hdot.2)]
        rw [htokval, hrest]
        have hlen : (wstep ((c :: p).dropWhile (fun x => x != treeDelim))).length ≤ k := by
          have h1 := lenDropWhileLe (fun x => x != treeDelim) p
          have h2 := wstep_length_le ((c :: p).dropWhile (fun x => x != treeDelim))
          simp only [List.dropWhile, hcb] at h2 ⊢
          simp at hw
          omega
        have hsegr : segsOf (wstep ((c :: p).dropWhile (fun x => x != treeDelim))) =
            segsOf ((c :: p).dropWhile (fun x => x != treeDelim)) := by
          cases hr : (c :: p).dropWhile (fun x => x != treeDelim) with
          | nil => rfl
          | cons r0 rr =>
            have hr0 := dropWhileHeadNot (fun x => x != treeDelim) (c :: p) r0 rr hr
            simp at hr0
            show segsOf rr = segsOf (r0 :: rr)
            rw [segsOf_delim r0 rr hr0]
        have hchr : ∀ x ∈ wstep ((c :: p).dropWhile (fun x => x != treeDelim)),
            x ≠ '*' ∧ x ≠ '?' ∧ x ≠ '[' ∧ x ≠ ']' := by
          intro x hx
          apply hch
          cases hr : (c :: p).dropWhile (fun x => x != treeDelim) with
          | nil =>
            rw [hr] at hx
            simp [wstep] at hx
          | cons r0 rr =>
            rw [hr] at hx
            simp only [wstep] at hx
            exact mem_of_mem_dropWhile _ _ _ (hr ▸ List.mem_cons_of_mem _ hx)
        have hsegs2 : ∀ s ∈ segsOf (wstep ((c :: p).dropWhile (fun x => x != treeDelim))),
            s ≠ ['.'] ∧ s ≠ ['.', '.'] := by
          intro s hs
          rw [hsegr] at hs
          apply hseg
          rw [htw]
          exact List.mem_cons_of_mem _ hs
        cases hf : childFind q.cur.children
            (String.mk ((c :: p).takeWhile (fun x => x != treeDelim))) with
        | none =>
          simp only [hf]
          rw [htw]
          simp [segsFollow, hf]
        | some child =>
          simp only [hf]
          have hmem := childFind_mem _ _ _ hf
          have hwfc := (wfNamesB_iff q.cur).mp hwf _ hmem
          simp only at hwfc
          have hih := ih (wstep ((c :: p).dropWhile (fun x => x != treeDelim))) hlen
            ⟨q.cur :: q.anc, child⟩ (sofar ++ [child.data.name])
            (show wfNamesB child = true from hwfc.2) hchr hsegs2
          rw [hih, hsegr, htw]
          simp only [segsFollow, hf]
          cases segsFollow ⟨q.cur :: q.anc, child⟩
              (segsOf ((c :: p).dropWhile (fun x => x != treeDelim))) with
          | none => rfl
          | some r =>
            simp only
            rw [hwfc.1]
            congr 1
            simp [List.append_assoc]

theorem joinSegs_cons (t : List Char) (b : List Char) (l : List (List Char)) :
    joinSegs (t :: b :: l) = t ++ treeDelim :: joinSegs (b :: l) := rfl

theorem joinSegs_glue :
    ∀ (ts : List (List Char)) (t a : List Char),
      joinSegs ((t ++ treeDelim :: a) :: ts) = t ++ treeDelim :: joinSegs (a :: ts) := by
  intro ts t a
  cases ts with
  | nil => rfl
  | cons b l =>
    rw [joinSegs_cons, joinSegs_cons]
    simp

theorem mkPath_data :
    ∀ (ts : List (List Char)) (t : List Char),
      ((ts.map String.mk).foldl
          (fun acc nm => acc ++ String.singleton treeDelim ++ nm) (String.mk t)).data =
        joinSegs (t :: ts) := by
  intro ts
  induction ts with
  | nil => intro t; rfl
  | cons a ts ih =>
    intro t
    simp only [List.map_cons, List.foldl_cons]
    have hglue : String.mk t ++ String.singleton treeDelim ++ String.mk a =
        String.mk (t ++ treeDelim :: a) := by
      apply String.ext
      simp [String.singleton]
    rw [hglue, ih (t ++ treeDelim :: a), joinSegs_glue]
    exact (joinSegs_cons t a ts).symm

theorem segsOf_joinSegs :
    ∀ (segs : List (List Char)),
      (∀ s ∈ segs, s ≠ [] ∧ ∀ c ∈ s, c ≠ treeDelim) →
      segsOf (joinSegs segs) = segs := by
  intro segs
  induction segs with
  | nil => intro h; simp [joinSegs]
  | cons t ts ih =>
    intro h
    have ht := h t (List.mem_cons_self _ _)
    cases t with
    | nil => exact absurd rfl ht.1
    | cons c r =>
      have hcd : c ≠ treeDelim := ht.2 c (List.mem_cons_self _ _)
      have hall : ∀ x ∈ c :: r, (x != treeDelim) = true := by
        intro x hx
        have := ht.2 x hx
        simp [this]
      cases ts with
      | nil =>
        have hj : joinSegs [c :: r] = c :: r := rfl
        rw [hj, segsOf_cons c r hcd, takeWhile_all _ _ hall, dropWhile_all _ _ hall]
        simp
      | cons b l =>
        rw [joinSegs_cons]
        have htk : ((c :: r) ++ treeDelim :: joinSegs (b :: l)).takeWhile
            (fun x => x != treeDelim) = c :: r := by
          rw [takeWhile_append_all (fun x => x != treeDelim) _ _ hall]
          simp only [List.takeWhile]
          have hdd : (treeDelim != treeDelim) = false := by simp
          rw [hdd]
          simp
        have hdr : ((c :: r) ++ treeDelim :: joinSegs (b :: l)).dropWhile
            (fun x => x != treeDelim) = treeDelim :: joinSegs (b :: l) := by
          rw [dropWhile_append_all (fun x => x != treeDelim) _ _ hall]
          simp only [List.dropWhile]
          have hdd : (treeDelim != treeDelim) = false := by simp
          rw [hdd]
        have hcons : (c :: r) ++ treeDelim :: joinSegs (b :: l) =
            c :: (r ++ treeDelim :: joinSegs (b :: l)) := rfl
        rw [hcons] at htk hdr
        rw [show segsOf ((c :: r) ++ treeDelim :: joinSegs (b :: l)) =
            segsOf (c :: (r ++ treeDelim :: joinSegs (b :: l))) from rfl]
        rw [segsOf_cons c _ hcd, htk, hdr, segsOf_delim treeDelim _ rfl,
          ih (fun s hs => h s (List.mem_cons_of_mem _ hs))]

/-- When the path starts with neither whitespace nor the delimiter, `follow`
neither skips characters nor restarts at the root. -/
theorem follow_eq_followLoop (root : Node) (arg : List Char) (p : Pos)
    (h : ∀ c, arg.head? = some c → isSpaceC c = false ∧ c ≠ treeDelim) :
    follow root arg (some p) = followLoop p arg := by
  cases arg with
  | nil => simp [follow]
  | cons c cs =>
    have hc := h c rfl
    have hdw : (c :: cs).dropWhile isSpaceC = c :: cs := by
      simp only [List.dropWhile, hc.1]
    simp only [follow, hdw]
    rw [if_neg (show ¬((c :: cs).head? = some treeDelim) from by
      simp
      exact hc.2)]

/-- C2 (amended): for a path containing no wildcard metacharacter, no `.` or
`..` segment, and starting with neither whitespace nor the delimiter, on a
tree whose child names agree with their keys: if literal resolution from a
node fails, glob expansion from that node yields nothing; if it succeeds,
glob expansion yields exactly one path, and literally resolving that path
from the same node reaches the same node `follow` reached. -/
theorem c2_plain_expansion_matches_follow (root : Node) (p : Pos) (w : List Char)
    (hwf : wfNamesB p.cur = true)
    (hch : ∀ c ∈ w, c ≠ '*' ∧ c ≠ '?' ∧ c ≠ '[' ∧ c ≠ ']')
    (hhead : ∀ c, w.head? = some c → isSpaceC c = false ∧ c ≠ treeDelim)
    (hw0 : w ≠ [])
    (hseg : ∀ s ∈ segsOf w, s ≠ ['.'] ∧ s ≠ ['.', '.']) :
    (follow root w (some p) = none → expandWord p w = []) ∧
    (∀ q, follow root w (some p) = some q →
      ∃ s : String, expandWord p w = [s] ∧ follow root s.data (some p) = some q) := by
  have hfl : follow root w (some p) = followLoop p w := follow_eq_followLoop root w p hhead
  have hFL : followLoop p w = segsFollow p (segsOf w) :=
    followLoop_segs w.length w le_rfl p hseg
  have hEX : expandWord p w =
      (match segsFollow p (segsOf w) with
       | some _ => mkPath ((segsOf w).map String.mk)
       | none => []) := by
    have := expandAux_segs w.length w le_rfl p [] hwf hch hseg
    rw [expandWord, this]
    simp
  constructor
  · intro hnone
    rw [hfl, hFL] at hnone
    rw [hEX, hnone]
  · intro q hq
    rw [hfl, hFL] at hq
    cases hwc : w with
    | nil => exact absurd hwc hw0
    | cons c p' =>
      have hc := hhead c (by rw [hwc]; rfl)
      have htw := segsOf_cons c p' hc.2
      have htkc : (c :: p').takeWhile (fun x => x != treeDelim) =
          c :: p'.takeWhile (fun x => x != treeDelim) := by
        simp only [List.takeWhile]
        have : (c != treeDelim) = true := by simp [hc.2]
        rw [this]
      rw [hwc] at hq hEX
      rw [htw] at hq hEX
      set t := (c :: p').takeWhile (fun x => x != treeDelim) with htdef
      set ts := segsOf ((c :: p').dropWhile (fun x => x != treeDelim)) with htsdef
      rw [hq] at hEX
      have hmk : mkPath ((t :: ts).map String.mk) =
          [(ts.map String.mk).foldl
            (fun acc nm => acc ++ String.singleton treeDelim ++ nm) (String.mk t)] := rfl
      rw [hmk] at hEX
      refine ⟨_, hEX, ?_⟩
      have hshape : ∀ s ∈ t :: ts, s ≠ [] ∧ ∀ ch ∈ s, ch ≠ treeDelim := by
        intro s hs
        apply segsOf_shape (c :: p').length (c :: p') le_rfl
        rw [htw]
        exact hs
      have hdata := mkPath_data ts t
      have hjoinsegs : segsOf (joinSegs (t :: ts)) = t :: ts := segsOf_joinSegs _ hshape
      have hheadj : ∀ ch, (joinSegs (t :: ts)).head? = some ch →
          isSpaceC ch = false ∧ ch ≠ treeDelim := by
        have htc : t = c :: p'.takeWhile (fun x => x != treeDelim) := htkc
        intro ch hch2
        have hj : (joinSegs (t :: ts)).head? = some c := by
          cases ts with
          | nil =>
            show (joinSegs [t]).head? = some c
            rw [show joinSegs [t] = t from rfl, htc]
            rfl
          | cons b l =>
            rw [joinSegs_cons, htc]
            rfl
        rw [hj] at hch2
        cases hch2
        exact ⟨hc.1, hc.2⟩
      have hsegj : ∀ s ∈ segsOf (joinSegs (t :: ts)), s ≠ ['.'] ∧ s ≠ ['.', '.'] := by
        rw [hjoinsegs]
        intro s hs
        apply hseg
        rw [hwc, htw]
        exact hs
      rw [hdata]
      rw [follow_eq_followLoop root _ p hheadj]
      rw [followLoop_segs (joinSegs (t :: ts)).length _ le_rfl p hsegj]
      rw [hjoinsegs]
      exact hq

/-- C2 amended-claim witness: from the root of `sampleT`, the wildcard-free
word `a/b` expands to exactly one path, which literally resolves to the node
`follow` reaches. -/
theorem c2_plain_expansion_matches_follow_witness :
    ∃ s : String, expandWord ⟨[], sampleT⟩ ['a', '/', 'b'] = [s] ∧
      follow sampleT s.data (some ⟨[], sampleT⟩) =
        some ⟨[sampleA, sampleT], leafN "b" 2⟩ := by
  have hwfT : wfNamesB sampleT = true := by
    rw [wfNamesB_iff]
    intro e he
    simp [sampleT] at he
    subst he
    refine ⟨by simp [sampleA], ?_⟩
    rw [wfNamesB_iff]
    intro e2 he2
    simp [sampleA] at he2
    subst he2
    refine ⟨by simp [leafN], ?_⟩
    rw [wfNamesB_iff]
    intro e3 he3
    simp [leafN] at he3
  have hsg : segsOf ['a', '/', 'b'] = [['a'], ['b']] := by
    have ha : ('a' != treeDelim) = true := by decide
    have hb : ('b' != treeDelim) = true := by decide
    have hd : ('/' != treeDelim) = false := by decide
    rw [segsOf_cons 'a' ['/', 'b'] (by decide)]
    simp only [List.takeWhile, List.dropWhile, ha, hd, hb]
    rw [segsOf_delim '/' ['b'] rfl]
    rw [segsOf_cons 'b' [] (by decide)]
    simp only [List.takeWhile, List.dropWhile, hb]
    rw [segsOf_nil]
  have happ := c2_plain_expansion_matches_follow sampleT ⟨[], sampleT⟩ ['a', '/', 'b']
    hwfT (by decide)
    (by intro c h; cases h; exact ⟨by decide, by decide⟩)
    (by simp)
    (by rw [hsg]
        intro s hs
        simp at hs
        rcases hs with h | h <;> subst h <;> exact ⟨by decide, by decide⟩)
  apply happ.2
  simp [follow, followLoop, isSpaceC, treeDelim, childFind, sampleT, sampleA, leafN]
